import Mathlib

/-!
Formal model of the dust3d mesh generator (`MeshGenerator` in
`mesh_generator.cpp`).  Every definition below is a shallow embedding of the
corresponding C++ function; machine floats are modelled by exact rationals,
`std::set` / `std::map` values by lists with the same membership or lookup
semantics, and the quantised `PositionKey` by an abstract key type together
with the quantisation map `posKey`.  The theorems at the end of the file
verify the specified properties of these functions.
-/

namespace Dust3d

/-- Combine modes of a component (`dust3d/base/combine_mode.h`).  The C++
sentinel value `CombineMode::Count`, used only as the initial value of
`lastCombineMode` in the grouping loop, is represented by `Option.none`. -/
inductive CombineMode
  | Normal
  | Inversion
  | Uncombined
deriving DecidableEq, Repr

/-! Definitions for `MeshGenerator::isWatertight`. -/

/-- Directed half edges of one face, `(face[i], face[(i+1) % n])` for each
index `i`, exactly as enumerated by the inner loop of
`MeshGenerator::isWatertight`. -/
def faceHalfEdges (face : List Nat) : List (Nat × Nat) :=
  (List.range face.length).map fun i =>
    (face.getD i 0, face.getD ((i + 1) % face.length) 0)

/-- All directed half edges of the face list, in insertion order. -/
def allHalfEdges (faces : List (List Nat)) : List (Nat × Nat) :=
  (faces.map faceHalfEdges).flatten

/-- The insertion phase of `MeshGenerator::isWatertight`: insert each directed
half edge into the set, failing (like the early `return false`) as soon as an
insertion hits an element already present. -/
def insertHalfEdges : List (Nat × Nat) → List (Nat × Nat) → Option (List (Nat × Nat))
  | [], s => some s
  | e :: rest, s => if e ∈ s then none else insertHalfEdges rest (e :: s)

/-- Shallow embedding of `MeshGenerator::isWatertight`: every directed half
edge inserts freshly, and afterwards every collected half edge has its
reversed counterpart in the set. -/
def isWatertight (faces : List (List Nat)) : Bool :=
  match insertHalfEdges (allHalfEdges faces) [] with
  | none => false
  | some s => s.all fun e => decide ((e.2, e.1) ∈ s)

/-! Definitions for `MeshGenerator::collectSharedQuadEdges`.  The C++ code
inserts the two diagonal `PositionKey` pairs of every 4-gon face into an
`std::set`; the model collects them in a list with the same members. -/

/-- Shallow embedding of `MeshGenerator::collectSharedQuadEdges`.  `posKey`
models the `PositionKey` quantisation constructor applied to a vertex
position. -/
def collectSharedQuadEdges {V K : Type} [Inhabited V] (posKey : V → K)
    (vertices : List V) : List (List Nat) → List (K × K)
  | [] => []
  | face :: rest =>
    if face.length = 4 then
      (posKey (vertices.getD (face.getD 0 0) default),
        posKey (vertices.getD (face.getD 2 0) default)) ::
      (posKey (vertices.getD (face.getD 1 0) default),
        posKey (vertices.getD (face.getD 3 0) default)) ::
      collectSharedQuadEdges posKey vertices rest
    else collectSharedQuadEdges posKey vertices rest

/-! Definitions for `MeshGenerator::chamferFace`.  `Vector2` components are
modelled by exact rationals; the literals `0.8` and `0.2` are the rationals
`4/5` and `1/5`. -/

/-- Two dimensional vector (`dust3d/base/vector2.h`), with exact rational
coordinates. -/
structure Vector2 where
  x : Rat
  y : Rat
deriving DecidableEq, Repr

instance : Inhabited Vector2 := ⟨⟨0, 0⟩⟩

/-- Scalar multiplication `v * s` of `Vector2`. -/
def Vector2.mulScalar (a : Vector2) (s : Rat) : Vector2 := ⟨a.x * s, a.y * s⟩

/-- Componentwise addition of `Vector2`. -/
def Vector2.add (a b : Vector2) : Vector2 := ⟨a.x + b.x, a.y + b.y⟩

/-- First chamfer point of edge `i`: `oldFace[i] * 0.8 + oldFace[j] * 0.2`
with `j = (i + 1) % n`. -/
def chamferPointA (face : List Vector2) (i : Nat) : Vector2 :=
  ((face.getD i default).mulScalar (4/5)).add
    ((face.getD ((i + 1) % face.length) default).mulScalar (1/5))

/-- Second chamfer point of edge `i`: `oldFace[i] * 0.2 + oldFace[j] * 0.8`
with `j = (i + 1) % n`. -/
def chamferPointB (face : List Vector2) (i : Nat) : Vector2 :=
  ((face.getD i default).mulScalar (1/5)).add
    ((face.getD ((i + 1) % face.length) default).mulScalar (4/5))

/-- Loop body of `MeshGenerator::chamferFace`, pushing the two chamfer points
of each edge index in turn. -/
def chamferAux (face : List Vector2) : List Nat → List Vector2
  | [] => []
  | i :: rest => chamferPointA face i :: chamferPointB face i :: chamferAux face rest

/-- Shallow embedding of `MeshGenerator::chamferFace`: the old face is
replaced by the two chamfer points of each of its `n` edges. -/
def chamferFace (face : List Vector2) : List Vector2 :=
  chamferAux face (List.range face.length)

/-! Definitions for the combination-cache eviction loop in
`MeshGenerator::generate`. -/

/-- Decidable prefix test on character lists. -/
def isPrefixL : List Char → List Char → Bool
  | [], _ => true
  | _ :: _, [] => false
  | a :: as, b :: bs => a == b && isPrefixL as bs

/-- Substring test modelling `std::string::find(pat) != std::string::npos`:
some suffix of `hay` starts with `pat`. -/
def containsSubstr (hay pat : List Char) : Bool :=
  (List.range (hay.length + 1)).any fun n => isPrefixL pat (hay.drop n)

/-- One pass of the eviction loop in `MeshGenerator::generate`: erase every
combination-cache entry whose key contains the dirty id `d` as a substring. -/
def evictForId {α : Type} (cache : List (String × α)) (d : String) : List (String × α) :=
  cache.filter fun kv => !containsSubstr kv.1.data d.data

/-- The full eviction loop of `MeshGenerator::generate` over all dirty
component ids. -/
def evictCombinations {α : Type} (cache : List (String × α)) (dirtyIds : List String) :
    List (String × α) :=
  dirtyIds.foldl evictForId cache

/-! Definitions for the group-by-combine-mode loop at the top of the
non-leaf branch of `MeshGenerator::combineComponentMesh`.  The loop state
holds the groups built so far and `lastCombineMode`; groups and their member
lists are accumulated in reverse (the C++ code appends at the back, the model
prepends at the front and reverses at the end). -/

/-- State of the grouping loop: `groups` is `combineGroups` (newest group
first, members newest first) and `lastMode` is `lastCombineMode`, with the
sentinel `CombineMode::Count` rendered as `none`. -/
structure GroupState where
  groups : List (CombineMode × List String)
  lastMode : Option CombineMode
deriving DecidableEq, Repr

/-- One iteration of the grouping loop of
`MeshGenerator::combineComponentMesh`: skip empty child ids, open a new group
when the combine mode changes or the previous mode was `Inversion`, otherwise
push the child onto the current group.  The C++ `continue` for
`-1 == currentGroupIndex` corresponds to the unreachable `[]` case. -/
def groupChildStep (modeOf : String → CombineMode) (st : GroupState) (c : String) :
    GroupState :=
  if c = "" then st
  else
    let m := modeOf c
    if st.lastMode ≠ some m ∨ st.lastMode = some CombineMode.Inversion then
      { groups := (m, [c]) :: st.groups, lastMode := some m }
    else
      match st.groups with
      | [] => st
      | (gm, ms) :: rest => { groups := (gm, c :: ms) :: rest, lastMode := st.lastMode }

/-- The grouping loop of `MeshGenerator::combineComponentMesh` over the
declared child list, producing the groups in declaration order.  `modeOf`
models `componentCombineMode(findComponent(childIdString))`.  The C++ code
stores `(childIdString, colorName)` pairs in each group; the color name is
carried along unread by the grouping itself, so the model keeps only the
ids. -/
def combineGroups (modeOf : String → CombineMode) (children : List String) :
    List (CombineMode × List String) :=
  let st := children.foldl (groupChildStep modeOf) ⟨[], none⟩
  (st.groups.map fun g => (g.1, g.2.reverse)).reverse

/-! Definitions for the dirty analysis (`MeshGenerator::checkIsPartDirty`,
`checkIsPartDependencyDirty`, `checkIsComponentDirty`, `checkDirtyFlags`).

The snapshot is the flat string-keyed structure of `dust3d/base/snapshot.h`:
attribute maps are association lists of strings.  The helpers
`String::valueOrEmpty`, `String::isTrue` and `String::split` and the
`Uuid::isNull` test live outside `src/`; `valueOrEmpty` and `split` are the
evident map lookup and separator split, `isTrue` is modelled from the spec
(booleans are the strings "true"/"false") and the `Uuid` null test is kept
abstract as a boolean parameter `isNullUuid`. -/

/-- Attribute map of a snapshot entity: string keys to string values. -/
abbrev AttrMap := List (String × String)

/-- Modelled from the spec: `String::valueOrEmpty(map, key)` returns the
stored value or the empty string. -/
def attrOf (m : AttrMap) (k : String) : String := ((m.lookup k).getD "")

/-- Modelled from the spec: `String::isTrue`; attribute booleans are the
strings "true" / "false". -/
def isTrueStr (v : String) : Bool := v == "true"

/-- Comma splitting on the underlying character list. -/
def splitCommaChars : List Char → List Char → List String
  | [], acc => [String.mk acc.reverse]
  | c :: rest, acc =>
    if c = ',' then String.mk acc.reverse :: splitCommaChars rest []
    else splitCommaChars rest (c :: acc)

/-- Modelled from the spec: `String::split(value, sep)` on the children CSV
(empty tokens are skipped by every caller). -/
def splitComma (s : String) : List String := splitCommaChars s.data []

/-- The snapshot fields used by the dirty analysis. -/
structure Snapshot where
  rootComponent : AttrMap
  components : List (String × AttrMap)
  parts : List (String × AttrMap)
  nodes : List (String × AttrMap)

/-- The string form of the nil uuid, `to_string(Uuid())`, which names the
virtual root component. -/
def nilUuidStr : String := "{00000000-0000-0000-0000-000000000000}"

/-- Component lookup of `checkIsComponentDirty` / `findComponent`: the nil
uuid denotes the root component, anything else is looked up in the component
table. -/
def componentAttrs (s : Snapshot) (id : String) : Option AttrMap :=
  if id = nilUuidStr then some s.rootComponent else s.components.lookup id

/-- Child id list of a component: split the `children` CSV and drop empty
entries (the loop `continue`s on them). -/
def childIdsOf (comp : AttrMap) : List String :=
  (splitComma (attrOf comp "children")).filter fun c => c != ""

/-- The `m_partNodeIds` index built by `MeshGenerator::collectParts`: ids of
the nodes whose `partId` attribute equals the given (non-empty) part id. -/
def partNodeIds (s : Snapshot) (partId : String) : List String :=
  if partId = "" then []
  else (s.nodes.filter fun n => attrOf n.2 "partId" == partId).map fun n => n.1

/-- Shallow embedding of `MeshGenerator::checkIsPartDirty`. -/
def checkIsPartDirty (s : Snapshot) (partId : String) : Bool :=
  match s.parts.lookup partId with
  | none => false
  | some attrs => isTrueStr (attrOf attrs "__dirty")

/-- Shallow embedding of `MeshGenerator::checkIsPartDependencyDirty`: the
part's own `cutFace` or any of its nodes' `cutFace` references a dirty
part. -/
def checkIsPartDependencyDirty (s : Snapshot) (isNullUuid : String → Bool)
    (partId : String) : Bool :=
  match s.parts.lookup partId with
  | none => false
  | some attrs =>
    let cutFaceStr := attrOf attrs "cutFace"
    if !isNullUuid cutFaceStr && checkIsPartDirty s cutFaceStr then true
    else
      (partNodeIds s partId).any fun nid =>
        match s.nodes.lookup nid with
        | none => false
        | some node =>
          let cf := attrOf node "cutFace"
          !isNullUuid cf && checkIsPartDirty s cf

/-- The mutable dirty sets of the generator, `m_dirtyComponentIds` and
`m_dirtyPartIds`, modelled as lists with set membership semantics. -/
structure DirtyState where
  dirtyComponentIds : List String
  dirtyPartIds : List String
deriving DecidableEq, Repr

/-- The straight-line part of one `checkIsComponentDirty` call before the
child loop: the component's own `__dirty` flag, then for a part leaf the
linked part's dirtiness (recording the dirty part id) and, only if still
clean, the part dependency dirtiness. -/
def componentSelfCheck (s : Snapshot) (isNullUuid : String → Bool)
    (comp : AttrMap) (st : DirtyState) : Bool × DirtyState :=
  let d0 := isTrueStr (attrOf comp "__dirty")
  if attrOf comp "linkDataType" == "partId" then
    let partId := attrOf comp "linkData"
    if checkIsPartDirty s partId then
      (true, { st with dirtyPartIds := partId :: st.dirtyPartIds })
    else if !d0 && checkIsPartDependencyDirty s isNullUuid partId then (true, st)
    else (d0, st)
  else (d0, st)

/-- Tail of one `checkIsComponentDirty` call: if the component or any child
came out dirty, record the component id in `m_dirtyComponentIds`. -/
def finishComponent (id : String) (selfDirty : Bool) (childRes : Bool × DirtyState) :
    Bool × DirtyState :=
  if selfDirty || childRes.1 then
    (true, { childRes.2 with dirtyComponentIds := id :: childRes.2.dirtyComponentIds })
  else (false, childRes.2)

mutual

/-- Shallow embedding of `MeshGenerator::checkIsComponentDirty`: the
component's own checks followed by the recursive child loop and the final
recording of the id.  The C++ recursion is unbounded; the model spends one
unit of `fuel` per recursion depth, so any `fuel` at least the component
tree height reproduces the source behaviour. -/
def checkIsComponentDirty (s : Snapshot) (isNullUuid : String → Bool) :
    Nat → String → DirtyState → Bool × DirtyState
  | 0, _, st => (false, st)
  | f + 1, id, st =>
    match componentAttrs s id with
    | none => (false, st)
    | some comp =>
      let p1 := componentSelfCheck s isNullUuid comp st
      let p2 := checkComponentsDirty s isNullUuid f (childIdsOf comp) p1.2
      finishComponent id p1.1 p2
termination_by fuel _ _ => (fuel, 0)

/-- The child loop of `checkIsComponentDirty`: check every child in order,
or-ing the results (no short-circuit, as in the source). -/
def checkComponentsDirty (s : Snapshot) (isNullUuid : String → Bool) :
    Nat → List String → DirtyState → Bool × DirtyState
  | _, [], st => (false, st)
  | fuel, id :: rest, st =>
    let one := checkIsComponentDirty s isNullUuid fuel id st
    let r := checkComponentsDirty s isNullUuid fuel rest one.2
    (one.1 || r.1, r.2)
termination_by fuel ids _ => (fuel, ids.length + 1)

end

/-- Shallow embedding of `MeshGenerator::checkDirtyFlags`: run the dirty
check from the virtual root component, starting with empty dirty sets. -/
def checkDirtyFlags (s : Snapshot) (isNullUuid : String → Bool) (fuel : Nat) :
    DirtyState :=
  (checkIsComponentDirty s isNullUuid fuel nilUuidStr ⟨[], []⟩).2

/-- Child ids of the component named `pid` (empty when the component is not
in the snapshot). -/
def childIdsOfComponent (s : Snapshot) (pid : String) : List String :=
  match componentAttrs s pid with
  | none => []
  | some comp => childIdsOf comp

/-- Membership of `cid` in the children list of component `pid`; the edge
relation of the component tree. -/
def validChild (s : Snapshot) (pid cid : String) : Prop :=
  cid ∈ childIdsOfComponent s pid

instance (s : Snapshot) (pid cid : String) : Decidable (validChild s pid cid) :=
  inferInstanceAs (Decidable (cid ∈ childIdsOfComponent s pid))

/-- The conditions under which one `checkIsComponentDirty` call finds the
component itself dirty (as opposed to dirty through a child): its own
`__dirty` flag, or, for a part leaf, a dirty linked part or a dirty cut-face
dependency. -/
def componentSelfDirty (s : Snapshot) (isNullUuid : String → Bool)
    (comp : AttrMap) : Bool :=
  isTrueStr (attrOf comp "__dirty") ||
    (attrOf comp "linkDataType" == "partId" &&
      (checkIsPartDirty s (attrOf comp "linkData") ||
        checkIsPartDependencyDirty s isNullUuid (attrOf comp "linkData")))

/-- The last component of a path exists in the snapshot and is itself dirty
(through its `__dirty` flag, its linked part or a cut-face dependency). -/
def lastSelfDirty (s : Snapshot) (isNullUuid : String → Bool)
    (p : List String) : Bool :=
  match p.getLast? with
  | none => false
  | some lid =>
    match componentAttrs s lid with
    | none => false
    | some la => componentSelfDirty s isNullUuid la

/-! Definitions for `MeshGenerator::reverseUuid`.  The `Uuid` class lives
outside `src/`; modelled from the spec, identifiers are UUID-like strings in
the canonical braced form `"{8-4-4-4-12}"` of lowercase hex digits, on which
the round trip `to_string(Uuid(s))` is the identity.  `reverseUuid` then
concatenates the five hex segments, reverses the resulting 32 characters and
reassembles the braced form. -/

/-- The 32 raw hex characters of a canonical uuid string: the C++ expression
`s.substr(1,8) + s.substr(10,4) + s.substr(15,4) + s.substr(20,4) +
s.substr(25,12)`. -/
def uuidCore (s : List Char) : List Char :=
  ((s.drop 1).take 8) ++ ((s.drop 10).take 4) ++ ((s.drop 15).take 4) ++
    ((s.drop 20).take 4) ++ ((s.drop 25).take 12)

/-- Reassembly of a braced uuid string from 32 raw characters: the C++
expression `"{" + r.substr(0,8) + "-" + r.substr(8,4) + "-" + r.substr(12,4)
+ "-" + r.substr(16,4) + "-" + r.substr(20,12) + "}"`. -/
def formatRawUuid (r : List Char) : List Char :=
  '{' :: (r.take 8 ++ '-' :: ((r.drop 8).take 4 ++ '-' :: ((r.drop 12).take 4 ++
    '-' :: ((r.drop 16).take 4 ++ '-' :: ((r.drop 20).take 12 ++ ['}'])))))

/-- Shallow embedding of `MeshGenerator::reverseUuid`. -/
def reverseUuid (s : String) : String :=
  String.mk (formatRawUuid (uuidCore s.data).reverse)

/-- Lowercase hexadecimal digit test. -/
def isLowerHexDigit (c : Char) : Bool := c.isDigit || ('a' ≤ c && c ≤ 'f')

/-- A well-formed uuid string: the canonical braced form of 32 lowercase hex
digits. -/
def WellFormedUuid (s : String) : Prop :=
  ∃ r : List Char, r.length = 32 ∧ (∀ c ∈ r, isLowerHexDigit c = true) ∧
    s.data = formatRawUuid r

/-! Definitions for `MeshGenerator::combineMultipleMeshes` and the
incombinable-mesh routing of `MeshGenerator::combineComponentChildGroupMesh`.
`MeshCombiner::Mesh` is an external CSG handle; the model keeps the mesh type
`M` abstract together with its `isNull` / `isCombinable` observers and the
binary CSG operation `combineTwo` (`MeshGenerator::combineTwoMeshes`). -/

/-- The CSG method chosen per submesh, `MeshCombiner::Method`. -/
inductive CMethod
  | union
  | diff
deriving DecidableEq, Repr

/-- Observers of the external `MeshCombiner::Mesh` handle. -/
structure MeshOps (M : Type) where
  isNull : M → Bool
  isCombinable : M → Bool

/-- The cache context and error flag touched by `combineMultipleMeshes`:
`m_cacheContext->cachedCombination` (a null result is memoised as `none`)
and `m_isSuccessful`. -/
structure CombineCtx (M : Type) where
  cachedCombination : List (String × Option M)
  isSuccessful : Bool
deriving DecidableEq

/-- One submesh entry of `combineMultipleMeshes`: the (possibly null) mesh
pointer, its combine mode and its id string. -/
abbrev CombineEntry (M : Type) := Option M × CombineMode × String

/-- One iteration of the loop of `MeshGenerator::combineMultipleMeshes`.
The accumulator holds the current mesh together with `meshIdStrings`; null
and non-combinable submeshes are skipped (the latter merely deleted, see the
`TODO: Collect vertices` comment in the source), the first combinable
submesh seeds the accumulator, and every later one is combined with `Diff`
for `Inversion` and `Union` otherwise, through the combination cache. -/
def combineStep {M : Type} (ops : MeshOps M)
    (combineTwo : M → M → CMethod → Bool → Option M) (recombine : Bool)
    (acc : Option (M × String) × CombineCtx M) (entry : CombineEntry M) :
    Option (M × String) × CombineCtx M :=
  match entry.1 with
  | none => acc
  | some sub =>
    if ops.isNull sub then acc
    else if !ops.isCombinable sub then acc
    else
      match acc.1 with
      | none => (some (sub, entry.2.2), acc.2)
      | some (mesh, key) =>
        let method := if entry.2.1 = CombineMode.Inversion then CMethod.diff
          else CMethod.union
        let opStr := if method = CMethod.union then "+" else "-"
        let key1 := key ++ opStr ++ entry.2.2 ++ (if recombine then "!" else "")
        let found := acc.2.cachedCombination.lookup key1
        let newMesh : Option M :=
          match found with
          | some cached => cached
          | none => combineTwo mesh sub method recombine
        let ctx1 : CombineCtx M :=
          match found with
          | some _ => acc.2
          | none =>
            { acc.2 with cachedCombination := (key1, newMesh) :: acc.2.cachedCombination }
        match newMesh with
        | some nm =>
          if ops.isNull nm then (some (mesh, key1), { ctx1 with isSuccessful := false })
          else (some (nm, key1), ctx1)
        | none => (some (mesh, key1), { ctx1 with isSuccessful := false })

/-- Shallow embedding of `MeshGenerator::combineMultipleMeshes`: fold the
loop over the submesh list and drop a null final mesh. -/
def combineMultipleMeshes {M : Type} (ops : MeshOps M)
    (combineTwo : M → M → CMethod → Bool → Option M) (recombine : Bool)
    (l : List (CombineEntry M)) (ctx : CombineCtx M) : Option M × CombineCtx M :=
  let r := l.foldl (combineStep ops combineTwo recombine) (none, ctx)
  match r.1 with
  | none => (none, r.2)
  | some (m, _) => if ops.isNull m then (none, r.2) else (some m, r.2)

/-- The submesh collection loop of
`MeshGenerator::combineComponentChildGroupMesh` (component-cache merging
omitted, it does not touch meshes): `Uncombined` children and null meshes are
dropped, non-combinable meshes are pushed onto the owning component cache's
`incombinableMeshes`, and the rest become the `multipleMeshes` argument of
`combineMultipleMeshes`.  `childResult` models
`combineComponentMesh(childIdString, &childCombineMode)`. -/
def childGroupStep {M : Type} (ops : MeshOps M)
    (childResult : String → Option M × CombineMode)
    (acc : List (CombineEntry M) × List M) (cid : String) :
    List (CombineEntry M) × List M :=
  -- one loop iteration over a child id; accumulates (multipleMeshes, incombinableMeshes)
  let r := childResult cid
  if r.2 = CombineMode.Uncombined then acc
  else
    match r.1 with
    | none => acc
    | some sm =>
      if ops.isNull sm then acc
      else if !ops.isCombinable sm then (acc.1, acc.2 ++ [sm])
      else (acc.1 ++ [(some sm, r.2, cid)], acc.2)

/-- The full collection loop of `combineComponentChildGroupMesh`, producing
the `multipleMeshes` list and the pushed `incombinableMeshes`. -/
def collectChildGroupMeshes {M : Type} (ops : MeshOps M)
    (childResult : String → Option M × CombineMode) (ids : List String) :
    List (CombineEntry M) × List M :=
  ids.foldl (childGroupStep ops childResult) ([], [])

/-- Entry lists used by the combine witnesses: two skippable entries. -/
def samplePre : List (CombineEntry Nat) :=
  [(none, CombineMode.Normal, "p"), (some 7, CombineMode.Normal, "q")]

/-- Entry list used by the combine witnesses: one combinable inversion. -/
def samplePost : List (CombineEntry Nat) := [(some 4, CombineMode.Inversion, "b")]

/-- Empty combine context used by the combine witnesses. -/
def sampleCtx : CombineCtx Nat := ⟨[], true⟩

/-- Vertex list for the quad-recovery witness (positions are their own
quantised keys). -/
def sampleVertices : List Nat := [0, 1, 2, 3]

/-- Two triangles sharing the directed edge `(1, 2)` / `(2, 1)`. -/
def sampleTriangles : List (List Nat) := [[0, 1, 2], [2, 1, 3]]

/-- Shared quad diagonals for the quad-recovery witness. -/
def sampleShared : List (Nat × Nat) := [(1, 2)]

/-- Snapshot used by the dirty-flag witness: the root has child `c1`, whose
child `c2` is a part leaf linking the dirty part `p1`. -/
def sampleSnapshot : Snapshot :=
  { rootComponent := [("children", "c1")],
    components := [("c1", [("children", "c2")]),
                   ("c2", [("linkDataType", "partId"), ("linkData", "p1")])],
    parts := [("p1", [("__dirty", "true")])],
    nodes := [] }

/-- Uuid null test used by the dirty-flag witness (every cut-face string in
the sample snapshot is empty, hence null). -/
def sampleIsNullUuid : String → Bool := fun _ => true

/-- An entry that the loop of `combineMultipleMeshes` skips without touching
the accumulator: a null pointer, a null mesh, or a non-combinable mesh. -/
def skippableEntry {M : Type} (ops : MeshOps M) (e : CombineEntry M) : Bool :=
  match e.1 with
  | none => true
  | some mm => ops.isNull mm || !ops.isCombinable mm

/-- Concrete mesh observers on `Nat` meshes for witnesses: `0` is the null
mesh and `7` is a non-null, non-combinable mesh. -/
def sampleOps : MeshOps Nat := ⟨fun n => decide (n = 0), fun n => decide (n ≠ 7)⟩

/-- Concrete CSG combine operation on `Nat` meshes for witnesses. -/
def sampleCombine (a b : Nat) (_m : CMethod) (_r : Bool) : Option Nat := some (a + b)

/-! Definitions for `MeshGenerator::recoverQuads`.  The C++ function builds
`triangleEdgeMap : std::map<(size_t,size_t),(size_t,size_t)>` from directed
triangle edges to (triangle index, opposite vertex), walks the map in its
sorted key order greedily merging adjacent triangle pairs across shared quad
diagonals, and finally re-emits the unmerged triangles.  The map is modelled
by an association list kept sorted by key, with assignment overwriting. -/

/-- Strict lexicographic order on directed edges, the `std::map` key order. -/
def pairLt (p q : Nat × Nat) : Prop := p.1 < q.1 ∨ (p.1 = q.1 ∧ p.2 < q.2)

instance (p q : Nat × Nat) : Decidable (pairLt p q) := by
  unfold pairLt; infer_instance

/-- The triangle edge map: directed edge to (triangle index, opposite
vertex), sorted by key. -/
abbrev EdgeMap := List ((Nat × Nat) × (Nat × Nat))

/-- Assignment `map[k] = v` on the sorted association list. -/
def edgeMapInsert (k v : Nat × Nat) : EdgeMap → EdgeMap
  | [] => [(k, v)]
  | (k', v') :: rest =>
    if pairLt k k' then (k, v) :: (k', v') :: rest
    else if k = k' then (k, v) :: rest
    else (k', v') :: edgeMapInsert k v rest

/-- Lookup `map.find(k)` on the association list. -/
def edgeMapLookup (k : Nat × Nat) : EdgeMap → Option (Nat × Nat)
  | [] => none
  | (k', v) :: rest => if k = k' then some v else edgeMapLookup k rest

/-- The edge-map construction loop of `recoverQuads`: for each face of size
3 at index `i`, assign its three directed edges to `(i, opposite vertex)`. -/
def buildEdgeMapGo : Nat → List (List Nat) → EdgeMap → EdgeMap
  | _, [], m => m
  | i, f :: rest, m =>
    let m1 :=
      if f.length = 3 then
        edgeMapInsert (f.getD 2 0, f.getD 0 0) (i, f.getD 1 0)
          (edgeMapInsert (f.getD 1 0, f.getD 2 0) (i, f.getD 0 0)
            (edgeMapInsert (f.getD 0 0, f.getD 1 0) (i, f.getD 2 0) m))
      else m
    buildEdgeMapGo (i + 1) rest m1

/-- The triangle edge map of a triangle list. -/
def buildEdgeMap (triangles : List (List Nat)) : EdgeMap :=
  buildEdgeMapGo 0 triangles []

/-- The greedy quad-merging loop of `recoverQuads`, walking the edge map in
order.  The state records the merged quads, each tagged with the pair of
triangle indices it united (the tag is the content of `unionedFaces.insert`),
and the set `unionedFaces`.  For each map entry over an edge whose quantised
key pair is a shared quad diagonal, if the opposite directed edge exists and
neither incident triangle was merged yet, the quad
`[t1.opposite, edge.a, t2.opposite, edge.b]` is emitted. -/
def recoverStep {K : Type} [DecidableEq K] [Inhabited K] (vkeys : List K)
    (shared : List (K × K)) (em : EdgeMap)
    (st : List ((Nat × Nat) × List Nat) × List Nat)
    (e : (Nat × Nat) × (Nat × Nat)) :
    List ((Nat × Nat) × List Nat) × List Nat :=
  -- one iteration of the merging loop at map entry `e`
  if e.2.1 ∈ st.2 then st
  else
    let keyPair := (vkeys.getD e.1.1 default, vkeys.getD e.1.2 default)
    if keyPair ∈ shared then
      match edgeMapLookup (e.1.2, e.1.1) em with
      | none => st
      | some opp =>
        if opp.1 ∈ st.2 then st
        else
          (st.1 ++ [((e.2.1, opp.1), [e.2.2, e.1.1, opp.2, e.1.2])],
            e.2.1 :: opp.1 :: st.2)
    else st

/-- The full merging loop, walking the edge map in its sorted order. -/
def recoverQuadsLoop {K : Type} [DecidableEq K] [Inhabited K] (vkeys : List K)
    (shared : List (K × K)) (em : EdgeMap) :
    List ((Nat × Nat) × List Nat) × List Nat :=
  em.foldl (recoverStep vkeys shared em) ([], [])

/-- Sortedness of the edge map by strict key order (the `std::map`
invariant). -/
def EdgeMapSorted (m : EdgeMap) : Prop :=
  List.Chain' (fun e e' => pairLt e.1 e'.1) m

/-- Proof infrastructure: a merged quad record is sound with respect to the
edge map and the shared-diagonal set: it is the 4-gon
`[t1.opposite, a, t2.opposite, b]` over a directed edge `(a, b)` whose
quantised key pair is shared and whose two directed versions are both in the
edge map. -/
def QuadRecSound {K : Type} [DecidableEq K] [Inhabited K] (vkeys : List K)
    (shared : List (K × K)) (em : EdgeMap) (r : (Nat × Nat) × List Nat) : Prop :=
  ∃ a b o1 o2, r.2 = [o1, a, o2, b] ∧
    (vkeys.getD a default, vkeys.getD b default) ∈ shared ∧
    edgeMapLookup (a, b) em = some (r.1.1, o1) ∧
    edgeMapLookup (b, a) em = some (r.1.2, o2)

/-- Proof infrastructure: the invariant of the merging loop: all records
are sound, the merged triangle pairs are pairwise disjoint, and
`unionedFaces` holds exactly the indices of merged records. -/
def RecoverLoopInv {K : Type} [DecidableEq K] [Inhabited K] (vkeys : List K)
    (shared : List (K × K)) (em : EdgeMap)
    (st : List ((Nat × Nat) × List Nat) × List Nat) : Prop :=
  (∀ r ∈ st.1, QuadRecSound vkeys shared em r) ∧
  List.Pairwise (fun r r' : (Nat × Nat) × List Nat =>
    r.1.1 ≠ r'.1.1 ∧ r.1.1 ≠ r'.1.2 ∧ r.1.2 ≠ r'.1.1 ∧ r.1.2 ≠ r'.1.2) st.1 ∧
  (∀ i : Nat, i ∈ st.2 ↔ ∃ r ∈ st.1, i = r.1.1 ∨ i = r.1.2)

/-- The final loop of `recoverQuads`: emit every triangle whose index was
never merged, in order. -/
def appendUnmerged : Nat → List (List Nat) → List Nat → List (List Nat)
  | _, [], _ => []
  | i, f :: rest, unioned =>
    if i ∈ unioned then appendUnmerged (i + 1) rest unioned
    else f :: appendUnmerged (i + 1) rest unioned

/-- Shallow embedding of `MeshGenerator::recoverQuads` (the
`triangleAndQuads` output): the merged quads followed by the unmerged
triangles.  `posKey` models the `PositionKey` constructor, so `vertices.map
posKey` is `verticesPositionKeys`. -/
def recoverQuads {V K : Type} [DecidableEq K] [Inhabited K] (posKey : V → K)
    (vertices : List V) (triangles : List (List Nat)) (shared : List (K × K)) :
    List (List Nat) :=
  let r := recoverQuadsLoop (vertices.map posKey) shared (buildEdgeMap triangles)
  (r.1.map fun q => q.2) ++ appendUnmerged 0 triangles r.2

/-- Triangle `i` of the list is a 3-gon containing the directed edge
`(a, b)` with `o` as its remaining vertex, in one of the three cyclic
positions enumerated by the edge-map construction. -/
def triHasEdge (triangles : List (List Nat)) (i a b o : Nat) : Prop :=
  ∃ f, triangles[i]? = some f ∧ f.length = 3 ∧
    ((a, b, o) = (f.getD 0 0, f.getD 1 0, f.getD 2 0) ∨
     (a, b, o) = (f.getD 1 0, f.getD 2 0, f.getD 0 0) ∨
     (a, b, o) = (f.getD 2 0, f.getD 0 0, f.getD 1 0))

/-! Proof infrastructure for the grouping loop (not part of the source
model): the loop invariant of `groupChildStep` and the children recovered
from a loop state. -/

/-- Children recorded in a grouping loop state, oldest first (undoing the
reversed accumulation). -/
def flattenRevGroups (st : GroupState) : List String :=
  ((st.groups.map fun g => g.2.reverse).reverse).flatten

/-- Invariant of the grouping loop: `lastMode` is set exactly when a group
exists and names the current group's mode; groups are nonempty and
homogeneous with no empty child id; `Inversion` groups are singletons; and
each group was opened only when its mode differed from the previous group's
or is `Inversion`. -/
def GroupInv (modeOf : String → CombineMode) (st : GroupState) : Prop :=
  (st.lastMode = none ↔ st.groups = []) ∧
  (∀ g ∈ st.groups, g.2 ≠ []) ∧
  (∀ g ∈ st.groups, ∀ c ∈ g.2, modeOf c = g.1 ∧ c ≠ "") ∧
  (∀ g ∈ st.groups, g.1 = CombineMode.Inversion → g.2.length = 1) ∧
  (match st.groups with
   | [] => True
   | g :: _ => st.lastMode = some g.1) ∧
  List.Chain' (fun g g' => g'.1 ≠ g.1 ∨ g.1 = CombineMode.Inversion) st.groups

/-! Sample inputs used by the witness theorems. -/

/-- A square cut face used as a chamfer witness input. -/
def sampleFace : List Vector2 := [⟨0, 0⟩, ⟨1, 0⟩, ⟨1, 1⟩, ⟨0, 1⟩]

/-- Core of a uuid whose reversal differs from it. -/
def sampleUuidCore : List Char := '1' :: List.replicate 31 '0'

/-- A well-formed uuid string with non-palindromic core. -/
def sampleUuidStr : String := "{10000000-0000-0000-0000-000000000000}"

/-- Combine modes used by the grouping witness: `x` and `y` invert, `u` is
uncombined, everything else is normal. -/
def sampleModeOf (c : String) : CombineMode :=
  if c = "x" ∨ c = "y" then CombineMode.Inversion
  else if c = "u" then CombineMode.Uncombined
  else CombineMode.Normal

/-- Child list used by the grouping witness. -/
def sampleChildren : List String := ["a", "b", "x", "y", "", "c", "u"]

/-! Theorems.  Helper lemmas come first, the per-claim theorems are marked
with the claim id in their doc comments. -/

theorem insertHalfEdges_isSome :
    ∀ (l s : List (Nat × Nat)),
      (insertHalfEdges l s).isSome = true ↔ l.Nodup ∧ ∀ e ∈ l, e ∉ s := by
  intro l
  induction l with
  | nil => intro s; simp [insertHalfEdges]
  | cons x rest ih =>
    intro s
    by_cases hx : x ∈ s
    · simp only [insertHalfEdges, if_pos hx]
      simp only [Option.isSome_none, List.nodup_cons]
      constructor
      · intro h; cases h
      · rintro ⟨-, hall⟩
        exact absurd hx (hall x (List.mem_cons_self x rest))
    · simp only [insertHalfEdges, if_neg hx, ih, List.nodup_cons]
      constructor
      · rintro ⟨hnd, hall⟩
        refine ⟨⟨fun hmem => (hall x hmem) (List.mem_cons_self x s), hnd⟩, ?_⟩
        intro e he
        rcases List.mem_cons.1 he with rfl | he'
        · exact hx
        · exact fun hes => (hall e he') (List.mem_cons_of_mem _ hes)
      · rintro ⟨⟨hxr, hnd⟩, hall⟩
        refine ⟨hnd, ?_⟩
        intro e he hmem
        rcases List.mem_cons.1 hmem with rfl | hes
        · exact hxr he
        · exact hall e (List.mem_cons_of_mem _ he) hes

theorem insertHalfEdges_mem :
    ∀ (l s s' : List (Nat × Nat)), insertHalfEdges l s = some s' →
      ∀ e, e ∈ s' ↔ e ∈ l ∨ e ∈ s := by
  intro l
  induction l with
  | nil =>
    intro s s' h e
    simp only [insertHalfEdges, Option.some.injEq] at h
    subst h; simp
  | cons x rest ih =>
    intro s s' h e
    by_cases hx : x ∈ s
    · simp [insertHalfEdges, hx] at h
    · simp only [insertHalfEdges, if_neg hx] at h
      have hmem := ih _ _ h e
      rw [hmem]
      simp only [List.mem_cons]
      tauto

/-- Claim C2: `isWatertight` returns true if and only if every directed half
edge of every face has its opposite directed half edge in some face and no
directed half edge occurs more than once across all faces. -/
theorem isWatertight_iff (faces : List (List Nat)) :
    isWatertight faces = true ↔
      (allHalfEdges faces).Nodup ∧
        ∀ e ∈ allHalfEdges faces, (e.2, e.1) ∈ allHalfEdges faces := by
  unfold isWatertight
  cases h : insertHalfEdges (allHalfEdges faces) [] with
  | none =>
    constructor
    · intro hfalse; cases hfalse
    · rintro ⟨hnd, -⟩
      have hs : (insertHalfEdges (allHalfEdges faces) []).isSome = true :=
        (insertHalfEdges_isSome (allHalfEdges faces) []).2
          ⟨hnd, fun e _ he => (List.not_mem_nil e) he⟩
      rw [h] at hs; cases hs
  | some s =>
    have hmem := insertHalfEdges_mem _ _ _ h
    have hnd : (allHalfEdges faces).Nodup := by
      have hs : (insertHalfEdges (allHalfEdges faces) []).isSome = true := by
        rw [h]; rfl
      exact ((insertHalfEdges_isSome (allHalfEdges faces) []).1 hs).1
    simp only [List.all_eq_true, decide_eq_true_eq]
    constructor
    · intro hall
      refine ⟨hnd, fun e he => ?_⟩
      have h1 : e ∈ s := (hmem e).2 (Or.inl he)
      have h2 : (e.2, e.1) ∈ s := hall e h1
      rcases (hmem (e.2, e.1)).1 h2 with h3 | h3
      · exact h3
      · exact absurd h3 (List.not_mem_nil _)
    · rintro ⟨-, hopp⟩ e hes
      have h1 : e ∈ allHalfEdges faces := by
        rcases (hmem e).1 hes with h' | h'
        · exact h'
        · exact absurd h' (List.not_mem_nil _)
      exact (hmem (e.2, e.1)).2 (Or.inl (hopp e h1))

/-- Claim C4: `collectSharedQuadEdges` collects exactly the two diagonal
position-key pairs of every 4-vertex face; faces of any other size
contribute nothing. -/
theorem collectSharedQuadEdges_mem {V K : Type} [Inhabited V] (posKey : V → K)
    (vertices : List V) (faces : List (List Nat)) (p : K × K) :
    p ∈ collectSharedQuadEdges posKey vertices faces ↔
      ∃ face ∈ faces, face.length = 4 ∧
        (p = (posKey (vertices.getD (face.getD 0 0) default),
              posKey (vertices.getD (face.getD 2 0) default)) ∨
         p = (posKey (vertices.getD (face.getD 1 0) default),
              posKey (vertices.getD (face.getD 3 0) default))) := by
  induction faces with
  | nil => simp [collectSharedQuadEdges]
  | cons face rest ih =>
    by_cases h4 : face.length = 4
    · simp only [collectSharedQuadEdges, if_pos h4, List.mem_cons, ih]
      constructor
      · rintro (rfl | rfl | ⟨f, hf, hlen, hp⟩)
        · exact ⟨face, Or.inl rfl, h4, Or.inl rfl⟩
        · exact ⟨face, Or.inl rfl, h4, Or.inr rfl⟩
        · exact ⟨f, Or.inr hf, hlen, hp⟩
      · rintro ⟨f, (rfl | hf), hlen, (rfl | rfl)⟩
        · exact Or.inl rfl
        · exact Or.inr (Or.inl rfl)
        · exact Or.inr (Or.inr ⟨f, hf, hlen, Or.inl rfl⟩)
        · exact Or.inr (Or.inr ⟨f, hf, hlen, Or.inr rfl⟩)
    · simp only [collectSharedQuadEdges, if_neg h4, ih, List.mem_cons]
      constructor
      · rintro ⟨f, hf, hlen, hp⟩
        exact ⟨f, Or.inr hf, hlen, hp⟩
      · rintro ⟨f, (rfl | hf), hlen, hp⟩
        · exact absurd hlen h4
        · exact ⟨f, hf, hlen, hp⟩

theorem mem_evictCombinations {α : Type} :
    ∀ (dirtyIds : List String) (cache : List (String × α)) (kv : String × α),
      kv ∈ evictCombinations cache dirtyIds ↔
        kv ∈ cache ∧ ∀ d ∈ dirtyIds, containsSubstr kv.1.data d.data = false := by
  intro dirtyIds
  induction dirtyIds with
  | nil => intro cache kv; simp [evictCombinations]
  | cons d ds ih =>
    intro cache kv
    have step : evictCombinations cache (d :: ds) = evictCombinations (evictForId cache d) ds := rfl
    rw [step, ih]
    simp only [evictForId, List.mem_filter, Bool.not_eq_true', List.mem_cons]
    constructor
    · rintro ⟨⟨hc, hd⟩, hds⟩
      refine ⟨hc, ?_⟩
      rintro x (rfl | hx)
      · exact hd
      · exact hds x hx
    · rintro ⟨hc, hall⟩
      exact ⟨⟨hc, hall d (Or.inl rfl)⟩, fun x hx => hall x (Or.inr hx)⟩

/-- Claim C6: after the eviction loop of `generate`, for every dirty
component id `d`, no surviving combination-cache key contains `d` as a
substring, and every entry whose key contained `d` has been removed. -/
theorem evictCombinations_spec {α : Type} (cache : List (String × α))
    (dirtyIds : List String) (d : String) (hd : d ∈ dirtyIds) :
    (∀ kv ∈ evictCombinations cache dirtyIds,
        containsSubstr kv.1.data d.data = false) ∧
    (∀ kv ∈ cache, containsSubstr kv.1.data d.data = true →
        kv ∉ evictCombinations cache dirtyIds) := by
  constructor
  · intro kv hkv
    exact ((mem_evictCombinations dirtyIds cache kv).1 hkv).2 d hd
  · intro kv _ hsub hkv
    have := ((mem_evictCombinations dirtyIds cache kv).1 hkv).2 d hd
    rw [this] at hsub; cases hsub

/-- Witness for C6 at a concrete cache and dirty set. -/
theorem evictCombinations_spec_witness :
    "b" ∈ ["b"] ∧
      ((∀ kv ∈ evictCombinations [("ab", (0 : Nat)), ("cd", 1)] ["b"],
          containsSubstr kv.1.data "b".data = false) ∧
       (∀ kv ∈ [("ab", (0 : Nat)), ("cd", 1)],
          containsSubstr kv.1.data "b".data = true →
            kv ∉ evictCombinations [("ab", (0 : Nat)), ("cd", 1)] ["b"])) :=
  ⟨by decide, evictCombinations_spec [("ab", 0), ("cd", 1)] ["b"] "b" (by decide)⟩

theorem chamferAux_length (face : List Vector2) :
    ∀ is : List Nat, (chamferAux face is).length = 2 * is.length := by
  intro is
  induction is with
  | nil => simp [chamferAux]
  | cons i rest ih => simp [chamferAux, ih]; ring

theorem chamferAux_getD (face : List Vector2) :
    ∀ (is : List Nat) (k : Nat), k < is.length →
      (chamferAux face is).getD (2 * k) default = chamferPointA face (is.getD k 0) ∧
      (chamferAux face is).getD (2 * k + 1) default = chamferPointB face (is.getD k 0) := by
  intro is
  induction is with
  | nil => intro k hk; cases hk
  | cons i rest ih =>
    intro k hk
    cases k with
    | zero => simp [chamferAux]
    | succ k =>
      have h2 : 2 * (k + 1) = (2 * k + 1) + 1 := by ring
      rw [h2]
      simp only [chamferAux, List.getD_cons_succ]
      exact ih k (by simpa using Nat.lt_of_succ_lt_succ hk)

theorem range_getD (n k : Nat) (h : k < n) : (List.range n).getD k 0 = k := by
  simp [List.getD_eq_getElem?_getD, List.getElem?_range h]

/-- Claim C8: chamfering a cut polygon with at least one vertex replaces each
edge `(p_i, p_j)` (`j = (i+1) % n`) by the two points `p_i*0.8 + p_j*0.2` and
`p_i*0.2 + p_j*0.8`, yielding exactly twice as many vertices in the same
winding order. -/
theorem chamferFace_spec (face : List Vector2) (h : 0 < face.length) :
    (chamferFace face).length = 2 * face.length ∧
    ∀ i, i < face.length →
      (chamferFace face).getD (2 * i) default =
        ((face.getD i default).mulScalar (4/5)).add
          ((face.getD ((i + 1) % face.length) default).mulScalar (1/5)) ∧
      (chamferFace face).getD (2 * i + 1) default =
        ((face.getD i default).mulScalar (1/5)).add
          ((face.getD ((i + 1) % face.length) default).mulScalar (4/5)) := by
  constructor
  · rw [chamferFace, chamferAux_length, List.length_range]
  · intro i hi
    have hr : i < (List.range face.length).length := by
      simpa [List.length_range] using hi
    have := chamferAux_getD face (List.range face.length) i hr
    rw [range_getD face.length i hi] at this
    exact this

/-- Witness for C8 on the square `sampleFace`. -/
theorem chamferFace_spec_witness :
    0 < sampleFace.length ∧
      ((chamferFace sampleFace).length = 2 * sampleFace.length ∧
        ∀ i, i < sampleFace.length →
          (chamferFace sampleFace).getD (2 * i) default =
            ((sampleFace.getD i default).mulScalar (4/5)).add
              ((sampleFace.getD ((i + 1) % sampleFace.length) default).mulScalar (1/5)) ∧
          (chamferFace sampleFace).getD (2 * i + 1) default =
            ((sampleFace.getD i default).mulScalar (1/5)).add
              ((sampleFace.getD ((i + 1) % sampleFace.length) default).mulScalar (4/5))) :=
  ⟨by decide, chamferFace_spec sampleFace (by decide)⟩

theorem groupChildStep_inv (modeOf : String → CombineMode) (st : GroupState)
    (c : String) (h : GroupInv modeOf st) :
    GroupInv modeOf (groupChildStep modeOf st c) := by
  obtain ⟨h1, h2, h3, h4, h5, h6⟩ := h
  unfold groupChildStep
  by_cases hc : c = ""
  · rw [if_pos hc]; exact ⟨h1, h2, h3, h4, h5, h6⟩
  · rw [if_neg hc]
    by_cases hcond : st.lastMode ≠ some (modeOf c) ∨ st.lastMode = some CombineMode.Inversion
    · rw [if_pos hcond]
      refine ⟨by simp, ?_, ?_, ?_, by simp, ?_⟩
      · intro g hg
        rcases List.mem_cons.1 hg with rfl | hg'
        · simp
        · exact h2 g hg'
      · intro g hg
        rcases List.mem_cons.1 hg with rfl | hg'
        · intro x hx
          rcases List.mem_cons.1 hx with rfl | hx'
          · exact ⟨rfl, hc⟩
          · exact absurd hx' (List.not_mem_nil x)
        · exact h3 g hg'
      · intro g hg
        rcases List.mem_cons.1 hg with rfl | hg'
        · intro _; rfl
        · exact h4 g hg'
      · refine List.chain'_cons'.2 ⟨?_, h6⟩
        intro b hb
        cases hgs : st.groups with
        | nil => rw [hgs] at hb; simp at hb
        | cons g0 rest0 =>
          rw [hgs] at hb
          simp only [List.head?_cons, Option.mem_def, Option.some.injEq] at hb
          have hlast : st.lastMode = some b.1 := by
            rw [← hb]
            have h5' := h5
            rw [hgs] at h5'
            exact h5'
          rcases hcond with hne | hinv
          · refine Or.inl fun heq => hne ?_
            rw [hlast]
            exact congrArg some (by simpa using heq)
          · have hb1 : b.1 = CombineMode.Inversion :=
              Option.some.inj (hlast.symm.trans hinv)
            by_cases hm : modeOf c = CombineMode.Inversion
            · exact Or.inr hm
            · refine Or.inl fun heq => hm ?_
              have h' : b.1 = modeOf c := by simpa using heq
              rw [← h']
              exact hb1
    · rw [if_neg hcond]
      push_neg at hcond
      obtain ⟨hlm, hlmne⟩ := hcond
      cases hgs : st.groups with
      | nil =>
        show GroupInv modeOf st
        exact ⟨h1, h2, h3, h4, h5, h6⟩
      | cons g0 rest =>
        obtain ⟨gm, ms⟩ := g0
        have hlast : st.lastMode = some gm := by
          have := h5; rw [hgs] at this; exact this
        have hgmm : gm = modeOf c := Option.some.inj (hlast.symm.trans hlm)
        have hgmne : gm ≠ CombineMode.Inversion := fun he =>
          hlmne (by rw [hlast, he])
        refine ⟨?_, ?_, ?_, ?_, ?_, ?_⟩
        · simp [hlm]
        · intro g hg
          rcases List.mem_cons.1 hg with rfl | hg'
          · simp
          · exact h2 g (by rw [hgs]; exact List.mem_cons_of_mem _ hg')
        · intro g hg
          rcases List.mem_cons.1 hg with rfl | hg'
          · intro x hx
            rcases List.mem_cons.1 hx with rfl | hx'
            · exact ⟨hgmm.symm, hc⟩
            · exact h3 (gm, ms) (by rw [hgs]; exact List.mem_cons_self _ _) x hx'
          · exact h3 g (by rw [hgs]; exact List.mem_cons_of_mem _ hg')
        · intro g hg
          rcases List.mem_cons.1 hg with rfl | hg'
          · intro he; exact absurd he hgmne
          · exact h4 g (by rw [hgs]; exact List.mem_cons_of_mem _ hg')
        · simpa using hlast
        · have h6' : List.Chain'
              (fun g g' => g'.1 ≠ g.1 ∨ g.1 = CombineMode.Inversion)
              ((gm, ms) :: rest) := by rw [hgs] at h6; exact h6
          obtain ⟨hr, hrest⟩ := List.chain'_cons'.1 h6'
          exact List.chain'_cons'.2 ⟨fun b hb => hr b hb, hrest⟩

theorem groupChildStep_flatten (modeOf : String → CombineMode) (st : GroupState)
    (c : String) (h : GroupInv modeOf st) :
    flattenRevGroups (groupChildStep modeOf st c)
      = flattenRevGroups st ++ (if c = "" then [] else [c]) := by
  unfold groupChildStep
  by_cases hc : c = ""
  · simp [hc]
  · rw [if_neg hc, if_neg hc]
    by_cases hcond : st.lastMode ≠ some (modeOf c) ∨ st.lastMode = some CombineMode.Inversion
    · rw [if_pos hcond]
      simp [flattenRevGroups]
    · rw [if_neg hcond]
      push_neg at hcond
      cases hgs : st.groups with
      | nil =>
        have hnone : st.lastMode = none := h.1.2 hgs
        rw [hnone] at hcond
        simp at hcond
      | cons g0 rest =>
        obtain ⟨gm, ms⟩ := g0
        simp [flattenRevGroups, hgs, List.append_assoc]

theorem groupLoop_fold (modeOf : String → CombineMode) :
    ∀ (l : List String) (st : GroupState), GroupInv modeOf st →
      GroupInv modeOf (l.foldl (groupChildStep modeOf) st) ∧
      flattenRevGroups (l.foldl (groupChildStep modeOf) st)
        = flattenRevGroups st ++ l.filter (fun c => c != "") := by
  intro l
  induction l with
  | nil => intro st h; exact ⟨h, by simp⟩
  | cons c rest ih =>
    intro st h
    have hstep := groupChildStep_inv modeOf st c h
    have hfl := groupChildStep_flatten modeOf st c h
    have hrec := ih (groupChildStep modeOf st c) hstep
    refine ⟨hrec.1, ?_⟩
    rw [List.foldl_cons, hrec.2, hfl]
    by_cases hc : c = ""
    · simp [hc]
    · simp [hc, List.filter_cons, List.append_assoc]

/-- Claim C3: the grouping loop of `combineComponentMesh` partitions the
non-empty children, in declared order, into contiguous homogeneous groups,
where every `Inversion` child is alone in its group and each consecutive
group boundary has a mode change or an `Inversion` group on its right. -/
theorem combineGroups_spec (modeOf : String → CombineMode) (children : List String) :
    ((combineGroups modeOf children).map (fun g => g.2)).flatten
        = children.filter (fun c => c != "") ∧
    (∀ g ∈ combineGroups modeOf children, g.2 ≠ [] ∧ ∀ c ∈ g.2, modeOf c = g.1) ∧
    (∀ g ∈ combineGroups modeOf children,
        g.1 = CombineMode.Inversion → g.2.length = 1) ∧
    List.Chain' (fun g g' : CombineMode × List String =>
      g.1 ≠ g'.1 ∨ g'.1 = CombineMode.Inversion) (combineGroups modeOf children) := by
  have hinit : GroupInv modeOf ⟨[], none⟩ := by
    refine ⟨by simp, by simp, by simp, by simp, trivial, by simp⟩
  have hfold := groupLoop_fold modeOf children ⟨[], none⟩ hinit
  set st := children.foldl (groupChildStep modeOf) ⟨[], none⟩ with hst
  obtain ⟨⟨i1, i2, i3, i4, i5, i6⟩, hflat⟩ := hfold
  have hmem : ∀ g, g ∈ combineGroups modeOf children ↔
      ∃ g0 ∈ st.groups, (g0.1, g0.2.reverse) = g := by
    intro g
    rw [combineGroups]
    simp [← hst, List.mem_reverse, List.mem_map]
  refine ⟨?_, ?_, ?_, ?_⟩
  · have : (combineGroups modeOf children).map (fun g => g.2)
        = (st.groups.map fun g => g.2.reverse).reverse := by
      rw [combineGroups]
      simp [← hst, List.map_reverse, List.map_map, Function.comp]
    rw [this]
    have : flattenRevGroups st = children.filter (fun c => c != "") := by
      simpa [flattenRevGroups] using hflat
    exact this
  · intro g hg
    obtain ⟨g0, hg0, rfl⟩ := (hmem g).1 hg
    refine ⟨by simpa using i2 g0 hg0, ?_⟩
    intro c hcm
    exact (i3 g0 hg0 c (List.mem_reverse.1 hcm)).1
  · intro g hg
    obtain ⟨g0, hg0, rfl⟩ := (hmem g).1 hg
    intro hInv
    simpa using i4 g0 hg0 hInv
  · rw [combineGroups]
    rw [List.chain'_reverse]
    rw [List.chain'_map]
    refine List.Chain'.imp ?_ i6
    intro a b hab
    simpa [flip] using hab

theorem uuidCore_formatRawUuid (r : List Char) (h : r.length = 32) :
    uuidCore (formatRawUuid r) = r := by
  have lA : (r.take 8).length = 8 := by simp [List.length_take]; omega
  have lB : ((r.drop 8).take 4).length = 4 := by
    simp [List.length_take, List.length_drop]; omega
  have lC : ((r.drop 12).take 4).length = 4 := by
    simp [List.length_take, List.length_drop]; omega
  have lD : ((r.drop 16).take 4).length = 4 := by
    simp [List.length_take, List.length_drop]; omega
  have lE : ((r.drop 20).take 12).length = 12 := by
    simp [List.length_take, List.length_drop]; omega
  have d1 : (formatRawUuid r).drop 1 =
      r.take 8 ++ '-' :: ((r.drop 8).take 4 ++ '-' :: ((r.drop 12).take 4 ++
        '-' :: ((r.drop 16).take 4 ++ '-' :: ((r.drop 20).take 12 ++ ['}'])))) := rfl
  have d10 : (formatRawUuid r).drop 10 =
      (r.drop 8).take 4 ++ '-' :: ((r.drop 12).take 4 ++
        '-' :: ((r.drop 16).take 4 ++ '-' :: ((r.drop 20).take 12 ++ ['}']))) := by
    have h9 : (r.take 8 ++ ['-']).length = 9 := by simp [lA]
    calc (formatRawUuid r).drop 10 = ((formatRawUuid r).drop 1).drop 9 := by
          rw [List.drop_drop]
      _ = ((r.take 8 ++ ['-']) ++ ((r.drop 8).take 4 ++ '-' :: ((r.drop 12).take 4 ++
            '-' :: ((r.drop 16).take 4 ++ '-' :: ((r.drop 20).take 12 ++ ['}']))))).drop 9 := by
          rw [d1]; simp [List.append_assoc]
      _ = _ := List.drop_left' h9
  have d15 : (formatRawUuid r).drop 15 =
      (r.drop 12).take 4 ++ '-' :: ((r.drop 16).take 4 ++
        '-' :: ((r.drop 20).take 12 ++ ['}'])) := by
    have h5 : ((r.drop 8).take 4 ++ ['-']).length = 5 := by simp [lB]
    calc (formatRawUuid r).drop 15 = ((formatRawUuid r).drop 10).drop 5 := by
          rw [List.drop_drop]
      _ = (((r.drop 8).take 4 ++ ['-']) ++ ((r.drop 12).take 4 ++
            '-' :: ((r.drop 16).take 4 ++ '-' :: ((r.drop 20).take 12 ++ ['}'])))).drop 5 := by
          rw [d10]; simp [List.append_assoc]
      _ = _ := List.drop_left' h5
  have d20 : (formatRawUuid r).drop 20 =
      (r.drop 16).take 4 ++ '-' :: ((r.drop 20).take 12 ++ ['}']) := by
    have h5 : ((r.drop 12).take 4 ++ ['-']).length = 5 := by simp [lC]
    calc (formatRawUuid r).drop 20 = ((formatRawUuid r).drop 15).drop 5 := by
          rw [List.drop_drop]
      _ = (((r.drop 12).take 4 ++ ['-']) ++ ((r.drop 16).take 4 ++
            '-' :: ((r.drop 20).take 12 ++ ['}']))).drop 5 := by
          rw [d15]; simp [List.append_assoc]
      _ = _ := List.drop_left' h5
  have d25 : (formatRawUuid r).drop 25 = (r.drop 20).take 12 ++ ['}'] := by
    have h5 : ((r.drop 16).take 4 ++ ['-']).length = 5 := by simp [lD]
    calc (formatRawUuid r).drop 25 = ((formatRawUuid r).drop 20).drop 5 := by
          rw [List.drop_drop]
      _ = (((r.drop 16).take 4 ++ ['-']) ++ ((r.drop 20).take 12 ++ ['}'])).drop 5 := by
          rw [d20]; simp [List.append_assoc]
      _ = _ := List.drop_left' h5
  have tA : ((formatRawUuid r).drop 1).take 8 = r.take 8 := by
    rw [d1]; exact List.take_left' lA
  have tB : ((formatRawUuid r).drop 10).take 4 = (r.drop 8).take 4 := by
    rw [d10]; exact List.take_left' lB
  have tC : ((formatRawUuid r).drop 15).take 4 = (r.drop 12).take 4 := by
    rw [d15]; exact List.take_left' lC
  have tD : ((formatRawUuid r).drop 20).take 4 = (r.drop 16).take 4 := by
    rw [d20]; exact List.take_left' lD
  have tE : ((formatRawUuid r).drop 25).take 12 = (r.drop 20).take 12 := by
    rw [d25]; exact List.take_left' lE
  have hDE : (r.drop 16).take 4 ++ (r.drop 20).take 12 = r.drop 16 := by
    have hEfull : (r.drop 20).take 12 = r.drop 20 :=
      List.take_of_length_le (by simp [List.length_drop]; omega)
    have h2020 : r.drop 20 = (r.drop 16).drop 4 := (List.drop_drop 4 16 r).symm
    rw [hEfull, h2020]
    exact List.take_append_drop 4 (r.drop 16)
  have hCDE : (r.drop 12).take 4 ++ r.drop 16 = r.drop 12 := by
    have h1216 : r.drop 16 = (r.drop 12).drop 4 := (List.drop_drop 4 12 r).symm
    rw [h1216]
    exact List.take_append_drop 4 (r.drop 12)
  have hBCDE : (r.drop 8).take 4 ++ r.drop 12 = r.drop 8 := by
    have h812 : r.drop 12 = (r.drop 8).drop 4 := (List.drop_drop 4 8 r).symm
    rw [h812]
    exact List.take_append_drop 4 (r.drop 8)
  rw [uuidCore, tA, tB, tC, tD, tE]
  simp only [List.append_assoc]
  rw [hDE, hCDE, hBCDE]
  exact List.take_append_drop 8 r

theorem reverseUuid_formatRawUuid (r : List Char) (h : r.length = 32) :
    reverseUuid (String.mk (formatRawUuid r)) = String.mk (formatRawUuid r.reverse) := by
  rw [reverseUuid]
  have : (String.mk (formatRawUuid r)).data = formatRawUuid r := rfl
  rw [this, uuidCore_formatRawUuid r h]

theorem formatRawUuid_inj (r1 r2 : List Char) (h1 : r1.length = 32)
    (h2 : r2.length = 32) (he : formatRawUuid r1 = formatRawUuid r2) : r1 = r2 := by
  have := congrArg uuidCore he
  rwa [uuidCore_formatRawUuid r1 h1, uuidCore_formatRawUuid r2 h2] at this

/-- Counterexample to claim C7 as stated: the nil uuid string is a
well-formed uuid string whose 32-character core is a palindrome, so
`reverseUuid` maps it to itself rather than to a distinct id. -/
theorem reverseUuid_nil_fixed :
    WellFormedUuid nilUuidStr ∧ reverseUuid nilUuidStr = nilUuidStr := by
  constructor
  · exact ⟨List.replicate 32 '0', by decide, by decide, by decide⟩
  · decide

/-- Claim C7 (amended): on well-formed uuid strings `reverseUuid` is
injective, maps well-formed strings to well-formed strings and is an
involution (hence a bijection), and its result differs from its input
exactly on those uuids whose 32-character hex core is not a palindrome (so
the fixed points are exactly the palindromic-core uuids, such as the nil
uuid). -/
theorem reverseUuid_bijection_spec :
    (∀ s1 s2, WellFormedUuid s1 → WellFormedUuid s2 →
        reverseUuid s1 = reverseUuid s2 → s1 = s2) ∧
    (∀ s, WellFormedUuid s →
        WellFormedUuid (reverseUuid s) ∧ reverseUuid (reverseUuid s) = s) ∧
    (∀ (s : String) (r : List Char), r.length = 32 → s.data = formatRawUuid r →
        (reverseUuid s ≠ s ↔ r.reverse ≠ r)) := by
  have hform : ∀ (s : String) (r : List Char), s.data = formatRawUuid r →
      s = String.mk (formatRawUuid r) := by
    intro s r hs
    exact String.ext hs
  refine ⟨?_, ?_, ?_⟩
  · rintro s1 s2 ⟨r1, hl1, -, hd1⟩ ⟨r2, hl2, -, hd2⟩ heq
    rw [hform s1 r1 hd1, hform s2 r2 hd2] at heq ⊢
    rw [reverseUuid_formatRawUuid r1 hl1, reverseUuid_formatRawUuid r2 hl2] at heq
    have hrev : r1.reverse = r2.reverse := by
      apply formatRawUuid_inj _ _ (by simp [hl1]) (by simp [hl2])
      exact congrArg String.data heq
    rw [List.reverse_injective hrev]
  · rintro s ⟨r, hl, hhex, hd⟩
    have hs : s = String.mk (formatRawUuid r) := hform s r hd
    constructor
    · rw [hs, reverseUuid_formatRawUuid r hl]
      exact ⟨r.reverse, by simp [hl], fun c hc => hhex c (List.mem_reverse.1 hc), rfl⟩
    · rw [hs, reverseUuid_formatRawUuid r hl,
        reverseUuid_formatRawUuid r.reverse (by simp [hl]), List.reverse_reverse]
  · intro s r hl hd
    rw [hform s r hd, reverseUuid_formatRawUuid r hl]
    constructor
    · intro hne hp
      exact hne (by rw [hp])
    · intro hp heq
      exact hp (formatRawUuid_inj _ _ (by simp [hl]) hl (congrArg String.data heq))

/-- Witness for C7 (amended): the involution facts applied at the nil uuid
and distinctness applied at a uuid with non-palindromic core. -/
theorem reverseUuid_bijection_spec_witness :
    (WellFormedUuid nilUuidStr ∧ WellFormedUuid (reverseUuid nilUuidStr) ∧
      reverseUuid (reverseUuid nilUuidStr) = nilUuidStr) ∧
    (sampleUuidCore.length = 32 ∧ sampleUuidStr.data = formatRawUuid sampleUuidCore ∧
      (reverseUuid sampleUuidStr ≠ sampleUuidStr ↔
        sampleUuidCore.reverse ≠ sampleUuidCore)) := by
  have hwf : WellFormedUuid nilUuidStr :=
    ⟨List.replicate 32 '0', by decide, by decide, by decide⟩
  exact ⟨⟨hwf, (reverseUuid_bijection_spec.2.1 nilUuidStr hwf).1,
      (reverseUuid_bijection_spec.2.1 nilUuidStr hwf).2⟩,
    by decide, by decide,
    reverseUuid_bijection_spec.2.2 sampleUuidStr sampleUuidCore (by decide)
      (by decide)⟩

/-- Witness for C3: the grouping properties at a concrete child list with
two inversions, an empty id and an uncombined child. -/
theorem combineGroups_spec_witness :
    ((combineGroups sampleModeOf sampleChildren).map (fun g => g.2)).flatten
        = sampleChildren.filter (fun c => c != "") ∧
    (∀ g ∈ combineGroups sampleModeOf sampleChildren,
        g.2 ≠ [] ∧ ∀ c ∈ g.2, sampleModeOf c = g.1) ∧
    (∀ g ∈ combineGroups sampleModeOf sampleChildren,
        g.1 = CombineMode.Inversion → g.2.length = 1) ∧
    List.Chain' (fun g g' : CombineMode × List String =>
      g.1 ≠ g'.1 ∨ g'.1 = CombineMode.Inversion)
      (combineGroups sampleModeOf sampleChildren) :=
  combineGroups_spec sampleModeOf sampleChildren

theorem combineStep_skip {M : Type} (ops : MeshOps M)
    (ct : M → M → CMethod → Bool → Option M) (rb : Bool)
    (acc : Option (M × String) × CombineCtx M) (e : CombineEntry M)
    (h : skippableEntry ops e = true) :
    combineStep ops ct rb acc e = acc := by
  obtain ⟨me, mo, eid⟩ := e
  cases me with
  | none => rfl
  | some mm =>
    simp only [skippableEntry] at h
    cases hn : ops.isNull mm with
    | true => simp [combineStep, hn]
    | false =>
      rw [hn] at h
      simp only [Bool.false_or, Bool.not_eq_true'] at h
      simp [combineStep, hn, h]

theorem foldl_combineStep_skips {M : Type} (ops : MeshOps M)
    (ct : M → M → CMethod → Bool → Option M) (rb : Bool) :
    ∀ (l : List (CombineEntry M)) (acc),
      (∀ e ∈ l, skippableEntry ops e = true) →
        l.foldl (combineStep ops ct rb) acc = acc := by
  intro l
  induction l with
  | nil => intro acc _; rfl
  | cons e rest ih =>
    intro acc h
    rw [List.foldl_cons, combineStep_skip ops ct rb acc e (h e (List.mem_cons_self e rest))]
    exact ih acc fun x hx => h x (List.mem_cons_of_mem _ hx)

theorem combineStep_seed {M : Type} (ops : MeshOps M)
    (ct : M → M → CMethod → Bool → Option M) (rb : Bool) (ctx : CombineCtx M)
    (m : M) (mode : CombineMode) (id : String)
    (hnull : ops.isNull m = false) (hcomb : ops.isCombinable m = true) :
    combineStep ops ct rb (none, ctx) (some m, mode, id) = (some (m, id), ctx) := by
  simp [combineStep, hnull, hcomb]

theorem combineStep_key_extends {M : Type} (ops : MeshOps M)
    (ct : M → M → CMethod → Bool → Option M) (rb : Bool)
    (acc : Option (M × String) × CombineCtx M) (e : CombineEntry M)
    (m0 : M) (key0 : String) (hacc : acc.1 = some (m0, key0)) :
    ∃ m1 key1, (combineStep ops ct rb acc e).1 = some (m1, key1) ∧
      ∃ suffix, key1.data = key0.data ++ suffix := by
  obtain ⟨a1, actx⟩ := acc
  simp only at hacc
  subst hacc
  obtain ⟨me, mo, eid⟩ := e
  cases me with
  | none => exact ⟨m0, key0, rfl, [], by simp⟩
  | some mm =>
    by_cases hn : ops.isNull mm
    · exact ⟨m0, key0, by simp [combineStep, hn], [], by simp⟩
    · by_cases hcb : ops.isCombinable mm
      · simp only [combineStep, hn, hcb, Bool.not_true, if_false, if_true,
          Bool.false_eq_true]
        set key1 := key0 ++ (if (if mo = CombineMode.Inversion then CMethod.diff
            else CMethod.union) = CMethod.union then "+" else "-") ++ eid ++
            (if rb then "!" else "") with hkey1
        have hsuffix : ∃ suffix, key1.data = key0.data ++ suffix := by
          refine ⟨((if (if mo = CombineMode.Inversion then CMethod.diff
            else CMethod.union) = CMethod.union then "+" else "-").data ++ eid.data ++
            (if rb then "!" else "").data), ?_⟩
          simp [hkey1, String.data_append, List.append_assoc]
        cases hfound : actx.cachedCombination.lookup key1 with
        | none =>
          cases hnm : ct m0 mm (if mo = CombineMode.Inversion then CMethod.diff
              else CMethod.union) rb with
          | none =>
            refine ⟨m0, key1, ?_, hsuffix⟩
            simp [combineStep, hn, hcb, ← hkey1, hfound, hnm]
          | some nm =>
            by_cases hnmnull : ops.isNull nm
            · refine ⟨m0, key1, ?_, hsuffix⟩
              simp [combineStep, hn, hcb, ← hkey1, hfound, hnm, hnmnull]
            · refine ⟨nm, key1, ?_, hsuffix⟩
              simp [combineStep, hn, hcb, ← hkey1, hfound, hnm, hnmnull]
        | some cached =>
          cases cached with
          | none =>
            refine ⟨m0, key1, ?_, hsuffix⟩
            simp [combineStep, hn, hcb, ← hkey1, hfound]
          | some nm =>
            by_cases hnmnull : ops.isNull nm
            · refine ⟨m0, key1, ?_, hsuffix⟩
              simp [combineStep, hn, hcb, ← hkey1, hfound, hnmnull]
            · refine ⟨nm, key1, ?_, hsuffix⟩
              simp [combineStep, hn, hcb, ← hkey1, hfound, hnmnull]
      · exact ⟨m0, key0, by simp [combineStep, hn, hcb], [], by simp⟩

theorem foldl_combineStep_key_extends {M : Type} (ops : MeshOps M)
    (ct : M → M → CMethod → Bool → Option M) (rb : Bool) :
    ∀ (l : List (CombineEntry M)) (acc) (m0 : M) (key0 : String),
      acc.1 = some (m0, key0) →
      ∃ m1 key1, (l.foldl (combineStep ops ct rb) acc).1 = some (m1, key1) ∧
        ∃ suffix, key1.data = key0.data ++ suffix := by
  intro l
  induction l with
  | nil => intro acc m0 key0 hacc; exact ⟨m0, key0, hacc, [], by simp⟩
  | cons e rest ih =>
    intro acc m0 key0 hacc
    obtain ⟨m1, key1, hstep, s1, hs1⟩ :=
      combineStep_key_extends ops ct rb acc e m0 key0 hacc
    obtain ⟨m2, key2, hfold, s2, hs2⟩ :=
      ih (combineStep ops ct rb acc e) m1 key1 hstep
    exact ⟨m2, key2, by rw [List.foldl_cons]; exact hfold, s1 ++ s2,
      by rw [hs2, hs1, List.append_assoc]⟩

/-- Claim C10: in `combineMultipleMeshes` the first non-null combinable
submesh seeds the accumulator with no CSG operation applied, its combine
mode is ignored, every later combination key extends the seed's id string
with no leading operator, and if no later submesh is usable the seed mesh is
returned untouched (an `Inversion` first submesh is therefore contributed
positively, never subtracted). -/
theorem combineMultipleMeshes_first_spec {M : Type} (ops : MeshOps M)
    (ct : M → M → CMethod → Bool → Option M) (rb : Bool)
    (pre post : List (CombineEntry M)) (m : M) (mode : CombineMode)
    (id : String) (ctx : CombineCtx M)
    (hpre : ∀ e ∈ pre, skippableEntry ops e = true)
    (hnull : ops.isNull m = false) (hcomb : ops.isCombinable m = true) :
    ((pre ++ (some m, mode, id) :: post).foldl (combineStep ops ct rb) (none, ctx)
        = post.foldl (combineStep ops ct rb) (some (m, id), ctx)) ∧
    (∀ mode2, combineMultipleMeshes ops ct rb (pre ++ (some m, mode2, id) :: post) ctx
        = combineMultipleMeshes ops ct rb (pre ++ (some m, mode, id) :: post) ctx) ∧
    (∀ m1 key, (post.foldl (combineStep ops ct rb) (some (m, id), ctx)).1
          = some (m1, key) →
        ∃ suffix, key.data = id.data ++ suffix) ∧
    ((∀ e ∈ post, skippableEntry ops e = true) →
        combineMultipleMeshes ops ct rb (pre ++ (some m, mode, id) :: post) ctx
          = (some m, ctx)) := by
  have hseed : ∀ (mo : CombineMode),
      (pre ++ (some m, mo, id) :: post).foldl (combineStep ops ct rb) (none, ctx)
        = post.foldl (combineStep ops ct rb) (some (m, id), ctx) := by
    intro mo
    rw [List.foldl_append, foldl_combineStep_skips ops ct rb pre (none, ctx) hpre,
      List.foldl_cons, combineStep_seed ops ct rb ctx m mo id hnull hcomb]
  refine ⟨hseed mode, ?_, ?_, ?_⟩
  · intro mode2
    rw [combineMultipleMeshes, combineMultipleMeshes, hseed mode2, hseed mode]
  · intro m1 key hkey
    obtain ⟨m2, key2, hfold, s, hs⟩ :=
      foldl_combineStep_key_extends ops ct rb post (some (m, id), ctx) m id rfl
    rw [hkey] at hfold
    obtain ⟨heqm, heqk⟩ := Prod.mk.injEq .. ▸ Option.some.inj hfold
    exact ⟨s, by rw [← heqk] at hs; exact hs⟩
  · intro hpost
    rw [combineMultipleMeshes, hseed mode,
      foldl_combineStep_skips ops ct rb post (some (m, id), ctx) hpost]
    simp [hnull]

/-- Witness for C10: the first-accumulator properties at a concrete mesh
list whose first combinable entry is an inversion preceded by a null and a
non-combinable entry. -/
theorem combineMultipleMeshes_first_spec_witness :
    ((samplePre ++ (some 3, CombineMode.Inversion, "a") :: samplePost).foldl
        (combineStep sampleOps sampleCombine true) (none, sampleCtx)
      = samplePost.foldl (combineStep sampleOps sampleCombine true)
          (some (3, "a"), sampleCtx)) ∧
    (∀ mode2, combineMultipleMeshes sampleOps sampleCombine true
        (samplePre ++ (some 3, mode2, "a") :: samplePost) sampleCtx
      = combineMultipleMeshes sampleOps sampleCombine true
          (samplePre ++ (some 3, CombineMode.Inversion, "a") :: samplePost) sampleCtx) ∧
    (∀ m1 key, (samplePost.foldl (combineStep sampleOps sampleCombine true)
          (some (3, "a"), sampleCtx)).1 = some (m1, key) →
        ∃ suffix, key.data = "a".data ++ suffix) ∧
    ((∀ e ∈ samplePost, skippableEntry sampleOps e = true) →
        combineMultipleMeshes sampleOps sampleCombine true
            (samplePre ++ (some 3, CombineMode.Inversion, "a") :: samplePost) sampleCtx
          = (some 3, sampleCtx)) :=
  combineMultipleMeshes_first_spec sampleOps sampleCombine true samplePre samplePost
    3 CombineMode.Inversion "a" sampleCtx (by decide) (by decide) (by decide)

theorem childGroupStep_mono {M : Type} (ops : MeshOps M)
    (childResult : String → Option M × CombineMode) :
    ∀ (ids : List String) (acc : List (CombineEntry M) × List M) (x : M),
      x ∈ acc.2 → x ∈ (ids.foldl (childGroupStep ops childResult) acc).2 := by
  intro ids
  induction ids with
  | nil => intro acc x hx; exact hx
  | cons cid rest ih =>
    intro acc x hx
    rw [List.foldl_cons]
    apply ih
    unfold childGroupStep
    by_cases hu : (childResult cid).2 = CombineMode.Uncombined
    · simpa [hu] using hx
    · cases hr : (childResult cid).1 with
      | none => simpa [hu, hr] using hx
      | some sm =>
        by_cases hn : ops.isNull sm
        · simpa [hu, hr, hn] using hx
        · by_cases hcb : ops.isCombinable sm
          · simpa [hu, hr, hn, hcb] using hx
          · simp only [hu, hr, hn, hcb, if_neg, Bool.not_false, if_true]
            simp [hu, hr, hn, hcb]
            exact Or.inl hx

/-- In `combineComponentChildGroupMesh` every non-null non-combinable child
mesh with a combinable mode is routed to `incombinableMeshes` (the behaviour
the spec states; the deviation is in `combineMultipleMeshes`). -/
theorem collectChildGroupMeshes_routes {M : Type} (ops : MeshOps M)
    (childResult : String → Option M × CombineMode) :
    ∀ (ids : List String) (cid : String) (sm : M), cid ∈ ids →
      (childResult cid).2 ≠ CombineMode.Uncombined →
      (childResult cid).1 = some sm →
      ops.isNull sm = false → ops.isCombinable sm = false →
      sm ∈ (collectChildGroupMeshes ops childResult ids).2 := by
  have main : ∀ (ids : List String) (acc : List (CombineEntry M) × List M)
      (cid : String) (sm : M), cid ∈ ids →
      (childResult cid).2 ≠ CombineMode.Uncombined →
      (childResult cid).1 = some sm →
      ops.isNull sm = false → ops.isCombinable sm = false →
      sm ∈ (ids.foldl (childGroupStep ops childResult) acc).2 := by
    intro ids
    induction ids with
    | nil => intro acc cid sm h; cases h
    | cons c rest ih =>
      intro acc cid sm hmem hu hr hn hcb
      rcases List.mem_cons.1 hmem with rfl | hmem'
      · rw [List.foldl_cons]
        apply childGroupStep_mono ops childResult rest
        unfold childGroupStep
        simp [hu, hr, hn, hcb]
      · rw [List.foldl_cons]
        exact ih _ cid sm hmem' hu hr hn hcb
  intro ids cid sm hmem hu hr hn hcb
  exact main ids ([], []) cid sm hmem hu hr hn hcb

/-- Claim C9 (failing input): `combineMultipleMeshes` silently drops a
non-null non-combinable submesh — its whole observable output (result mesh,
cache, success flag) is as if the submesh had never been in the list, so the
submesh is routed to no `incombinableMeshes` list, contradicting the spec
(the `TODO: Collect vertices` comment in the source marks the gap). -/
theorem combineMultipleMeshes_incombinable_dropped :
    combineMultipleMeshes sampleOps sampleCombine true
        [(some 7, CombineMode.Normal, "a"), (some 3, CombineMode.Normal, "b")]
        sampleCtx
      = combineMultipleMeshes sampleOps sampleCombine true
          [(some 3, CombineMode.Normal, "b")] sampleCtx ∧
    combineMultipleMeshes sampleOps sampleCombine true
        [(some 7, CombineMode.Normal, "a"), (some 3, CombineMode.Normal, "b")]
        sampleCtx
      = (some 3, sampleCtx) := by
  constructor
  · decide
  · decide

theorem componentSelfCheck_comp_ids (s : Snapshot) (inu : String → Bool)
    (comp : AttrMap) (st : DirtyState) :
    (componentSelfCheck s inu comp st).2.dirtyComponentIds = st.dirtyComponentIds := by
  simp only [componentSelfCheck]
  repeat' split
  all_goals rfl

theorem componentSelfCheck_true (s : Snapshot) (inu : String → Bool)
    (comp : AttrMap) (st : DirtyState) (h : componentSelfDirty s inu comp = true) :
    (componentSelfCheck s inu comp st).1 = true := by
  simp only [componentSelfDirty, Bool.or_eq_true, Bool.and_eq_true,
    beq_iff_eq] at h
  rcases h with hd | ⟨hlink, hpd⟩
  · simp only [componentSelfCheck, hd]
    split
    · split
      · rfl
      · split <;> rfl
    · rfl
  · have hlinkb : (attrOf comp "linkDataType" == "partId") = true := by simp [hlink]
    rcases hpd with hp | hdep
    · simp [componentSelfCheck, hlinkb, hp]
    · by_cases hp : checkIsPartDirty s (attrOf comp "linkData") = true
      · simp [componentSelfCheck, hlinkb, hp]
      · have hp' : checkIsPartDirty s (attrOf comp "linkData") = false := by
          simpa using hp
        by_cases hd0 : isTrueStr (attrOf comp "__dirty") = true
        · simp [componentSelfCheck, hlinkb, hp', hd0]
        · have hd0' : isTrueStr (attrOf comp "__dirty") = false := by simpa using hd0
          simp [componentSelfCheck, hlinkb, hp', hd0', hdep]

theorem finishComponent_mono (id : String) (b : Bool) (p2 : Bool × DirtyState)
    (x : String) (hx : x ∈ p2.2.dirtyComponentIds) :
    x ∈ (finishComponent id b p2).2.dirtyComponentIds := by
  unfold finishComponent
  split
  · exact List.mem_cons_of_mem _ hx
  · exact hx

theorem finishComponent_true (id : String) (b : Bool) (p2 : Bool × DirtyState)
    (h : b = true ∨ p2.1 = true) :
    (finishComponent id b p2).1 = true ∧
      id ∈ (finishComponent id b p2).2.dirtyComponentIds := by
  unfold finishComponent
  have hcond : (b || p2.1) = true := by rcases h with h | h <;> simp [h]
  rw [if_pos hcond]
  exact ⟨rfl, List.mem_cons_self _ _⟩

theorem checkDirty_mono (s : Snapshot) (inu : String → Bool) :
    ∀ fuel : Nat,
      (∀ (id : String) (st : DirtyState) (x : String), x ∈ st.dirtyComponentIds →
        x ∈ (checkIsComponentDirty s inu fuel id st).2.dirtyComponentIds) ∧
      (∀ (ids : List String) (st : DirtyState) (x : String), x ∈ st.dirtyComponentIds →
        x ∈ (checkComponentsDirty s inu fuel ids st).2.dirtyComponentIds) := by
  intro fuel
  induction fuel using Nat.strong_induction_on with
  | _ fuel ihf =>
    have hone : ∀ (id : String) (st : DirtyState) (x : String),
        x ∈ st.dirtyComponentIds →
        x ∈ (checkIsComponentDirty s inu fuel id st).2.dirtyComponentIds := by
      intro id st x hx
      cases fuel with
      | zero => simpa [checkIsComponentDirty] using hx
      | succ f =>
        simp only [checkIsComponentDirty]
        cases hattr : componentAttrs s id with
        | none => simpa using hx
        | some comp =>
          simp only []
          apply finishComponent_mono
          apply (ihf f (Nat.lt_succ_self f)).2
          rw [componentSelfCheck_comp_ids]
          exact hx
    refine ⟨hone, ?_⟩
    intro ids
    induction ids with
    | nil => intro st x hx; simpa [checkComponentsDirty] using hx
    | cons id rest ihr =>
      intro st x hx
      simp only [checkComponentsDirty]
      exact ihr _ x (hone id st x hx)

theorem checkIsComponentDirty_path (s : Snapshot) (inu : String → Bool) :
    ∀ (rest : List String) (fuel : Nat) (id : String) (st : DirtyState),
      List.Chain' (validChild s) (id :: rest) →
      lastSelfDirty s inu (id :: rest) = true →
      (id :: rest).length ≤ fuel →
      (checkIsComponentDirty s inu fuel id st).1 = true ∧
      ∀ a ∈ id :: rest,
        a ∈ (checkIsComponentDirty s inu fuel id st).2.dirtyComponentIds := by
  intro rest
  induction rest with
  | nil =>
    intro fuel id st _ hlast hfuel
    cases fuel with
    | zero => exact absurd hfuel (by simp)
    | succ f =>
      unfold lastSelfDirty at hlast
      simp only [List.getLast?_singleton] at hlast
      cases hattr : componentAttrs s id with
      | none => rw [hattr] at hlast; simp at hlast
      | some la =>
        rw [hattr] at hlast
        simp only [checkIsComponentDirty, hattr]
        have hp1 : (componentSelfCheck s inu la st).1 = true :=
          componentSelfCheck_true s inu la st hlast
        have hfin := finishComponent_true id (componentSelfCheck s inu la st).1
          (checkComponentsDirty s inu f (childIdsOf la)
            (componentSelfCheck s inu la st).2) (Or.inl hp1)
        refine ⟨hfin.1, ?_⟩
        intro a ha
        rcases List.mem_cons.1 ha with rfl | h0
        · exact hfin.2
        · cases h0
  | cons c rest' ih =>
    intro fuel id st hchain hlast hfuel
    cases fuel with
    | zero => exact absurd hfuel (by simp)
    | succ f =>
      obtain ⟨hvc, hchain'⟩ := List.chain'_cons.1 hchain
      have hvc' : c ∈ childIdsOfComponent s id := hvc
      cases hattr : componentAttrs s id with
      | none =>
        rw [show childIdsOfComponent s id = [] from by
          simp [childIdsOfComponent, hattr]] at hvc'
        exact absurd hvc' (List.not_mem_nil c)
      | some comp =>
        rw [show childIdsOfComponent s id = childIdsOf comp from by
          simp [childIdsOfComponent, hattr]] at hvc'
        simp only [checkIsComponentDirty, hattr]
        have hlast' : lastSelfDirty s inu (c :: rest') = true := by
          unfold lastSelfDirty at hlast ⊢
          rwa [List.getLast?_cons_cons] at hlast
        have hfl : (c :: rest').length ≤ f := by
          simpa using Nat.le_of_succ_le_succ hfuel
        have hsub : ∀ (l : List String) (st' : DirtyState), c ∈ l →
            (checkComponentsDirty s inu f l st').1 = true ∧
            ∀ a ∈ c :: rest',
              a ∈ (checkComponentsDirty s inu f l st').2.dirtyComponentIds := by
          intro l
          induction l with
          | nil => intro st' hc; cases hc
          | cons x xs ihl =>
            intro st' hc
            rcases List.mem_cons.1 hc with rfl | hc'
            · have hone := ih f c st' hchain' hlast' hfl
              simp only [checkComponentsDirty]
              constructor
              · rw [hone.1]; simp
              · intro a ha
                exact (checkDirty_mono s inu f).2 xs _ a (hone.2 a ha)
            · simp only [checkComponentsDirty]
              have hrec := ihl ((checkIsComponentDirty s inu f x st').2) hc'
              constructor
              · rw [hrec.1]; simp
              · exact fun a ha => hrec.2 a ha
        have hmain := hsub (childIdsOf comp) (componentSelfCheck s inu comp st).2 hvc'
        have hfin := finishComponent_true id (componentSelfCheck s inu comp st).1
          (checkComponentsDirty s inu f (childIdsOf comp)
            (componentSelfCheck s inu comp st).2) (Or.inr hmain.1)
        refine ⟨hfin.1, ?_⟩
        intro a ha
        rcases List.mem_cons.1 ha with rfl | ha'
        · exact hfin.2
        · exact finishComponent_mono id _ _ a (hmain.2 a ha')

/-- Claim C5: if a component reachable from the root along children lists is
itself dirty (its `__dirty` flag is set, or it is a part leaf whose linked
part or cut-face dependency is dirty), then after `checkDirtyFlags` it and
every ancestor on the root path are in the dirty component id set. -/
theorem checkDirtyFlags_spec (s : Snapshot) (inu : String → Bool) (fuel : Nat)
    (p : List String)
    (hchain : List.Chain' (validChild s) (nilUuidStr :: p))
    (hlast : lastSelfDirty s inu (nilUuidStr :: p) = true)
    (hfuel : (nilUuidStr :: p).length ≤ fuel) :
    ∀ a ∈ nilUuidStr :: p, a ∈ (checkDirtyFlags s inu fuel).dirtyComponentIds := by
  have h := checkIsComponentDirty_path s inu p fuel nilUuidStr ⟨[], []⟩ hchain hlast hfuel
  exact fun a ha => h.2 a ha

/-- Witness for C5: a dirty part leaf two levels below the root marks the
leaf, its parent and the root dirty. -/
theorem checkDirtyFlags_spec_witness :
    (List.Chain' (validChild sampleSnapshot) (nilUuidStr :: ["c1", "c2"]) ∧
      lastSelfDirty sampleSnapshot sampleIsNullUuid (nilUuidStr :: ["c1", "c2"]) = true ∧
      (nilUuidStr :: ["c1", "c2"]).length ≤ 3) ∧
    ∀ a ∈ nilUuidStr :: ["c1", "c2"],
      a ∈ (checkDirtyFlags sampleSnapshot sampleIsNullUuid 3).dirtyComponentIds := by
  have hchain : List.Chain' (validChild sampleSnapshot) (nilUuidStr :: ["c1", "c2"]) := by
    refine List.chain'_cons.2 ⟨by decide, List.chain'_cons.2 ⟨by decide, ?_⟩⟩
    simp
  exact ⟨⟨hchain, by decide, by decide⟩,
    checkDirtyFlags_spec sampleSnapshot sampleIsNullUuid 3 ["c1", "c2"]
      hchain (by decide) (by decide)⟩

theorem pairLt_trans {a b c : Nat × Nat} (h1 : pairLt a b) (h2 : pairLt b c) :
    pairLt a c := by
  obtain ⟨a1, a2⟩ := a
  obtain ⟨b1, b2⟩ := b
  obtain ⟨c1, c2⟩ := c
  simp only [pairLt] at *
  omega

theorem pairLt_irrefl (a : Nat × Nat) : ¬pairLt a a := by
  obtain ⟨a1, a2⟩ := a
  simp only [pairLt]
  omega

theorem pairLt_of_not (a b : Nat × Nat) (h1 : ¬pairLt a b) (h2 : a ≠ b) :
    pairLt b a := by
  obtain ⟨a1, a2⟩ := a
  obtain ⟨b1, b2⟩ := b
  simp only [pairLt] at h1 ⊢
  have h2' : a1 ≠ b1 ∨ a2 ≠ b2 := by
    by_contra hc
    push_neg at hc
    exact h2 (by rw [hc.1, hc.2])
  omega

theorem edgeMapInsert_mem (k v : Nat × Nat) :
    ∀ (m : EdgeMap) (x), x ∈ edgeMapInsert k v m → x = (k, v) ∨ x ∈ m := by
  intro m
  induction m with
  | nil =>
    intro x hx
    simp only [edgeMapInsert] at hx
    rcases List.mem_cons.1 hx with h | h
    · exact Or.inl h
    · exact Or.inr h
  | cons e rest ih =>
    intro x hx
    obtain ⟨k', v'⟩ := e
    simp only [edgeMapInsert] at hx
    by_cases h1 : pairLt k k'
    · rw [if_pos h1] at hx
      rcases List.mem_cons.1 hx with h | h
      · exact Or.inl h
      · exact Or.inr h
    · rw [if_neg h1] at hx
      by_cases h2 : k = k'
      · rw [if_pos h2] at hx
        rcases List.mem_cons.1 hx with h | h
        · exact Or.inl h
        · exact Or.inr (List.mem_cons_of_mem _ h)
      · rw [if_neg h2] at hx
        rcases List.mem_cons.1 hx with h | h
        · exact Or.inr (h ▸ List.mem_cons_self _ _)
        · rcases ih x h with h' | h'
          · exact Or.inl h'
          · exact Or.inr (List.mem_cons_of_mem _ h')

theorem edgeMapInsert_sorted (k v : Nat × Nat) :
    ∀ (m : EdgeMap), EdgeMapSorted m → EdgeMapSorted (edgeMapInsert k v m) := by
  intro m
  induction m with
  | nil =>
    intro _
    simp [edgeMapInsert, EdgeMapSorted]
  | cons e rest ih =>
    intro hs
    obtain ⟨k', v'⟩ := e
    have hs' : EdgeMapSorted rest := (List.chain'_cons'.1 hs).2
    have hshead := (List.chain'_cons'.1 hs).1
    simp only [edgeMapInsert]
    by_cases h1 : pairLt k k'
    · rw [if_pos h1]
      exact List.chain'_cons'.2 ⟨fun b hb => by
          simp only [List.head?_cons, Option.mem_def, Option.some.injEq] at hb
          rw [← hb]; exact h1,
        hs⟩
    · rw [if_neg h1]
      by_cases h2 : k = k'
      · rw [if_pos h2]
        exact List.chain'_cons'.2 ⟨fun b hb => h2 ▸ hshead b hb, hs'⟩
      · rw [if_neg h2]
        refine List.chain'_cons'.2 ⟨?_, ih hs'⟩
        intro b hb
        have hk'k : pairLt k' k := pairLt_of_not k k' h1 h2
        cases rest with
        | nil =>
          simp only [edgeMapInsert, List.head?_cons, Option.mem_def,
            Option.some.injEq] at hb
          rw [← hb]; exact hk'k
        | cons e2 rest2 =>
          obtain ⟨k2, v2⟩ := e2
          simp only [edgeMapInsert] at hb
          by_cases h3 : pairLt k k2
          · rw [if_pos h3] at hb
            simp only [List.head?_cons, Option.mem_def, Option.some.injEq] at hb
            rw [← hb]; exact hk'k
          · rw [if_neg h3] at hb
            by_cases h4 : k = k2
            · rw [if_pos h4] at hb
              simp only [List.head?_cons, Option.mem_def, Option.some.injEq] at hb
              rw [← hb]; exact hk'k
            · rw [if_neg h4] at hb
              simp only [List.head?_cons, Option.mem_def, Option.some.injEq] at hb
              rw [← hb]
              exact hshead (k2, v2) (by simp)

theorem edgeMapSorted_head_lt :
    ∀ (rest : EdgeMap) (a), EdgeMapSorted (a :: rest) →
      ∀ e ∈ rest, pairLt a.1 e.1 := by
  intro rest
  induction rest with
  | nil => intro a _ e he; cases he
  | cons b rest2 ih =>
    intro a h e he
    obtain ⟨hab, hrest⟩ := List.chain'_cons.1 h
    rcases List.mem_cons.1 he with rfl | he'
    · exact hab
    · exact pairLt_trans hab (ih b hrest e he')

theorem edgeMapLookup_of_mem :
    ∀ (m : EdgeMap), EdgeMapSorted m → ∀ (k v : Nat × Nat), (k, v) ∈ m →
      edgeMapLookup k m = some v := by
  intro m
  induction m with
  | nil => intro _ k v hm; cases hm
  | cons e rest ih =>
    intro hs k v hm
    obtain ⟨k', v'⟩ := e
    rcases List.mem_cons.1 hm with heq | hm'
    · obtain ⟨h1, h2⟩ := Prod.mk.injEq .. ▸ heq
      subst h1; subst h2
      simp [edgeMapLookup]
    · by_cases hk : k = k'
      · exfalso
        have hlt := edgeMapSorted_head_lt rest (k', v') hs (k, v) hm'
        rw [hk] at hlt
        exact pairLt_irrefl k' hlt
      · simp only [edgeMapLookup, if_neg hk]
        exact ih (List.chain'_cons'.1 hs).2 k v hm'

theorem mem_of_edgeMapLookup :
    ∀ (m : EdgeMap) (k v : Nat × Nat), edgeMapLookup k m = some v → (k, v) ∈ m := by
  intro m
  induction m with
  | nil => intro k v h; simp [edgeMapLookup] at h
  | cons e rest ih =>
    intro k v h
    obtain ⟨k', v'⟩ := e
    by_cases hk : k = k'
    · rw [edgeMapLookup, if_pos hk] at h
      rw [hk, Option.some.inj h]
      exact List.mem_cons_self _ _
    · rw [edgeMapLookup, if_neg hk] at h
      exact List.mem_cons_of_mem _ (ih k v h)

theorem buildEdgeMapGo_sorted :
    ∀ (rest : List (List Nat)) (i : Nat) (m : EdgeMap), EdgeMapSorted m →
      EdgeMapSorted (buildEdgeMapGo i rest m) := by
  intro rest
  induction rest with
  | nil => intro i m hm; exact hm
  | cons f rest' ih =>
    intro i m hm
    simp only [buildEdgeMapGo]
    apply ih
    by_cases h3 : f.length = 3
    · rw [if_pos h3]
      exact edgeMapInsert_sorted _ _ _
        (edgeMapInsert_sorted _ _ _ (edgeMapInsert_sorted _ _ _ hm))
    · rwa [if_neg h3]

theorem buildEdgeMapGo_prop (triangles : List (List Nat)) :
    ∀ (rest : List (List Nat)) (i : Nat) (m : EdgeMap),
      (∀ k : Nat, rest[k]? = triangles[i + k]?) →
      (∀ e ∈ m, triHasEdge triangles e.2.1 e.1.1 e.1.2 e.2.2) →
      ∀ e ∈ buildEdgeMapGo i rest m,
        triHasEdge triangles e.2.1 e.1.1 e.1.2 e.2.2 := by
  intro rest
  induction rest with
  | nil => intro i m _ hm e he; exact hm e he
  | cons f rest' ih =>
    intro i m hidx hm e he
    simp only [buildEdgeMapGo] at he
    refine ih (i + 1) _ ?_ ?_ e he
    · intro k
      have h := hidx (k + 1)
      have harr : i + (k + 1) = (i + 1) + k := by omega
      rw [harr] at h
      simpa using h
    · have hf : triangles[i]? = some f := by
        have h := hidx 0
        simpa using h.symm
      intro x hx
      by_cases h3 : f.length = 3
      · rw [if_pos h3] at hx
        rcases edgeMapInsert_mem _ _ _ x hx with rfl | hx1
        · exact ⟨f, hf, h3, Or.inr (Or.inr rfl)⟩
        · rcases edgeMapInsert_mem _ _ _ x hx1 with rfl | hx2
          · exact ⟨f, hf, h3, Or.inr (Or.inl rfl)⟩
          · rcases edgeMapInsert_mem _ _ _ x hx2 with rfl | hx3
            · exact ⟨f, hf, h3, Or.inl rfl⟩
            · exact hm x hx3
      · rw [if_neg h3] at hx
        exact hm x hx

theorem buildEdgeMap_sorted (triangles : List (List Nat)) :
    EdgeMapSorted (buildEdgeMap triangles) :=
  buildEdgeMapGo_sorted triangles 0 [] (by simp [EdgeMapSorted])

theorem buildEdgeMap_prop (triangles : List (List Nat)) :
    ∀ e ∈ buildEdgeMap triangles,
      triHasEdge triangles e.2.1 e.1.1 e.1.2 e.2.2 :=
  buildEdgeMapGo_prop triangles triangles 0 []
    (fun k => by simp) (fun e he => absurd he (List.not_mem_nil e))

theorem appendUnmerged_sub :
    ∀ (l : List (List Nat)) (i : Nat) (u : List Nat) (f : List Nat),
      f ∈ appendUnmerged i l u → f ∈ l := by
  intro l
  induction l with
  | nil => intro i u f h; cases h
  | cons g rest ih =>
    intro i u f h
    simp only [appendUnmerged] at h
    by_cases hm : i ∈ u
    · rw [if_pos hm] at h
      exact List.mem_cons_of_mem _ (ih (i + 1) u f h)
    · rw [if_neg hm] at h
      rcases List.mem_cons.1 h with rfl | h'
      · exact List.mem_cons_self _ _
      · exact List.mem_cons_of_mem _ (ih (i + 1) u f h')

theorem appendUnmerged_mem :
    ∀ (l : List (List Nat)) (k i : Nat) (u : List Nat) (f : List Nat),
      l[k]? = some f → (i + k) ∉ u → f ∈ appendUnmerged i l u := by
  intro l
  induction l with
  | nil => intro k i u f h; simp at h
  | cons g rest ih =>
    intro k i u f h hnm
    cases k with
    | zero =>
      have hg : g = f := by simpa using h
      subst hg
      simp only [appendUnmerged]
      rw [if_neg (by simpa using hnm)]
      exact List.mem_cons_self _ _
    | succ k' =>
      have h' : rest[k']? = some f := by simpa using h
      have hnm' : ((i + 1) + k') ∉ u := by
        have harr : i + (k' + 1) = (i + 1) + k' := by omega
        rwa [harr] at hnm
      simp only [appendUnmerged]
      by_cases hm : i ∈ u
      · rw [if_pos hm]
        exact ih k' (i + 1) u f h' hnm'
      · rw [if_neg hm]
        exact List.mem_cons_of_mem _ (ih k' (i + 1) u f h' hnm')

theorem recoverStep_inv {K : Type} [DecidableEq K] [Inhabited K]
    (vkeys : List K) (shared : List (K × K)) (em : EdgeMap)
    (hsort : EdgeMapSorted em)
    (st : List ((Nat × Nat) × List Nat) × List Nat)
    (e : (Nat × Nat) × (Nat × Nat)) (he : e ∈ em)
    (hinv : RecoverLoopInv vkeys shared em st) :
    RecoverLoopInv vkeys shared em (recoverStep vkeys shared em st e) := by
  obtain ⟨hA, hB, hC⟩ := hinv
  simp only [recoverStep]
  by_cases h1 : e.2.1 ∈ st.2
  · rw [if_pos h1]; exact ⟨hA, hB, hC⟩
  · rw [if_neg h1]
    by_cases h2 : (vkeys.getD e.1.1 default, vkeys.getD e.1.2 default) ∈ shared
    · rw [if_pos h2]
      cases hopp : edgeMapLookup (e.1.2, e.1.1) em with
      | none => exact ⟨hA, hB, hC⟩
      | some opp =>
        show RecoverLoopInv vkeys shared em
          (if opp.1 ∈ st.2 then st
           else (st.1 ++ [((e.2.1, opp.1), [e.2.2, e.1.1, opp.2, e.1.2])],
             e.2.1 :: opp.1 :: st.2))
        by_cases h3 : opp.1 ∈ st.2
        · rw [if_pos h3]; exact ⟨hA, hB, hC⟩
        · rw [if_neg h3]
          have hnewSound : QuadRecSound vkeys shared em
              ((e.2.1, opp.1), [e.2.2, e.1.1, opp.2, e.1.2]) := by
            refine ⟨e.1.1, e.1.2, e.2.2, opp.2, rfl, h2, ?_, ?_⟩
            · exact edgeMapLookup_of_mem em hsort (e.1.1, e.1.2) (e.2.1, e.2.2) he
            · exact hopp
          have hTi : ∀ r ∈ st.1, e.2.1 ≠ r.1.1 ∧ e.2.1 ≠ r.1.2 := by
            intro r hr
            constructor
            · intro hEq; exact h1 ((hC e.2.1).2 ⟨r, hr, Or.inl hEq⟩)
            · intro hEq; exact h1 ((hC e.2.1).2 ⟨r, hr, Or.inr hEq⟩)
          have hTj : ∀ r ∈ st.1, opp.1 ≠ r.1.1 ∧ opp.1 ≠ r.1.2 := by
            intro r hr
            constructor
            · intro hEq; exact h3 ((hC opp.1).2 ⟨r, hr, Or.inl hEq⟩)
            · intro hEq; exact h3 ((hC opp.1).2 ⟨r, hr, Or.inr hEq⟩)
          refine ⟨?_, ?_, ?_⟩
          · intro r hr
            rcases List.mem_append.1 hr with hr' | hr'
            · exact hA r hr'
            · have : r = ((e.2.1, opp.1), [e.2.2, e.1.1, opp.2, e.1.2]) := by
                simpa using hr'
              rw [this]
              exact hnewSound
          · rw [List.pairwise_append]
            refine ⟨hB, List.pairwise_singleton _ _, ?_⟩
            intro r hr r2 hr2
            have hr2' : r2 = ((e.2.1, opp.1), [e.2.2, e.1.1, opp.2, e.1.2]) := by
              simpa using hr2
            subst hr2'
            have h4 := hTi r hr
            have h5 := hTj r hr
            exact ⟨(h4.1).symm, (h5.1).symm, (h4.2).symm, (h5.2).symm⟩
          · intro i
            constructor
            · intro hi
              rcases List.mem_cons.1 hi with rfl | hi'
              · exact ⟨((e.2.1, opp.1), [e.2.2, e.1.1, opp.2, e.1.2]),
                  List.mem_append.2 (Or.inr (by simp)), Or.inl rfl⟩
              · rcases List.mem_cons.1 hi' with rfl | hi''
                · exact ⟨((e.2.1, opp.1), [e.2.2, e.1.1, opp.2, e.1.2]),
                    List.mem_append.2 (Or.inr (by simp)), Or.inr rfl⟩
                · obtain ⟨r, hr, hcase⟩ := (hC i).1 hi''
                  exact ⟨r, List.mem_append.2 (Or.inl hr), hcase⟩
            · rintro ⟨r, hr, hcase⟩
              rcases List.mem_append.1 hr with hr' | hr'
              · exact List.mem_cons_of_mem _
                  (List.mem_cons_of_mem _ ((hC i).2 ⟨r, hr', hcase⟩))
              · have : r = ((e.2.1, opp.1), [e.2.2, e.1.1, opp.2, e.1.2]) := by
                  simpa using hr'
                subst this
                rcases hcase with rfl | rfl
                · exact List.mem_cons_self _ _
                · exact List.mem_cons_of_mem _ (List.mem_cons_self _ _)
    · rw [if_neg h2]; exact ⟨hA, hB, hC⟩

theorem recoverLoop_fold {K : Type} [DecidableEq K] [Inhabited K]
    (vkeys : List K) (shared : List (K × K)) (em : EdgeMap)
    (hsort : EdgeMapSorted em) :
    ∀ (l : List ((Nat × Nat) × (Nat × Nat)))
      (st : List ((Nat × Nat) × List Nat) × List Nat),
      (∀ e ∈ l, e ∈ em) → RecoverLoopInv vkeys shared em st →
      RecoverLoopInv vkeys shared em
        (l.foldl (recoverStep vkeys shared em) st) := by
  intro l
  induction l with
  | nil => intro st _ hinv; exact hinv
  | cons e rest ih =>
    intro st hl hinv
    rw [List.foldl_cons]
    exact ih _ (fun x hx => hl x (List.mem_cons_of_mem _ hx))
      (recoverStep_inv vkeys shared em hsort st e (hl e (List.mem_cons_self e rest)) hinv)

theorem recoverQuadsLoop_inv {K : Type} [DecidableEq K] [Inhabited K]
    (vkeys : List K) (shared : List (K × K)) (triangles : List (List Nat)) :
    RecoverLoopInv vkeys shared (buildEdgeMap triangles)
      (recoverQuadsLoop vkeys shared (buildEdgeMap triangles)) := by
  apply recoverLoop_fold vkeys shared (buildEdgeMap triangles)
    (buildEdgeMap_sorted triangles) (buildEdgeMap triangles) ([], [])
    (fun e he => he)
  refine ⟨?_, ?_, ?_⟩
  · intro r hr; cases hr
  · exact List.Pairwise.nil
  · intro i
    constructor
    · intro hi; cases hi
    · rintro ⟨r, hr, -⟩; cases hr

theorem recoverStep_unioned_mono {K : Type} [DecidableEq K] [Inhabited K]
    (vkeys : List K) (shared : List (K × K)) (em : EdgeMap)
    (st : List ((Nat × Nat) × List Nat) × List Nat)
    (e : (Nat × Nat) × (Nat × Nat)) :
    ∀ i ∈ st.2, i ∈ (recoverStep vkeys shared em st e).2 := by
  intro i hi
  simp only [recoverStep]
  by_cases h1 : e.2.1 ∈ st.2
  · rw [if_pos h1]; exact hi
  · rw [if_neg h1]
    by_cases h2 : (vkeys.getD e.1.1 default, vkeys.getD e.1.2 default) ∈ shared
    · rw [if_pos h2]
      cases hopp : edgeMapLookup (e.1.2, e.1.1) em with
      | none => exact hi
      | some opp =>
        show i ∈ (if opp.1 ∈ st.2 then st
          else (st.1 ++ [((e.2.1, opp.1), [e.2.2, e.1.1, opp.2, e.1.2])],
            e.2.1 :: opp.1 :: st.2)).2
        by_cases h3 : opp.1 ∈ st.2
        · rw [if_pos h3]; exact hi
        · rw [if_neg h3]
          exact List.mem_cons_of_mem _ (List.mem_cons_of_mem _ hi)
    · rw [if_neg h2]; exact hi

theorem recoverLoop_unioned_mono {K : Type} [DecidableEq K] [Inhabited K]
    (vkeys : List K) (shared : List (K × K)) (em : EdgeMap) :
    ∀ (l : List ((Nat × Nat) × (Nat × Nat)))
      (st : List ((Nat × Nat) × List Nat) × List Nat) (i : Nat),
      i ∈ st.2 → i ∈ (l.foldl (recoverStep vkeys shared em) st).2 := by
  intro l
  induction l with
  | nil => intro st i hi; exact hi
  | cons e rest ih =>
    intro st i hi
    rw [List.foldl_cons]
    exact ih _ i (recoverStep_unioned_mono vkeys shared em st e i hi)

theorem recoverStep_pair_hit {K : Type} [DecidableEq K] [Inhabited K]
    (vkeys : List K) (shared : List (K × K)) (em : EdgeMap)
    (st : List ((Nat × Nat) × List Nat) × List Nat)
    (e : (Nat × Nat) × (Nat × Nat)) (opp : Nat × Nat)
    (hsh : (vkeys.getD e.1.1 default, vkeys.getD e.1.2 default) ∈ shared)
    (hopp : edgeMapLookup (e.1.2, e.1.1) em = some opp) :
    e.2.1 ∈ (recoverStep vkeys shared em st e).2 ∨
      opp.1 ∈ (recoverStep vkeys shared em st e).2 := by
  simp only [recoverStep]
  by_cases h1 : e.2.1 ∈ st.2
  · rw [if_pos h1]; exact Or.inl h1
  · rw [if_neg h1, if_pos hsh, hopp]
    show e.2.1 ∈ (if opp.1 ∈ st.2 then st
        else (st.1 ++ [((e.2.1, opp.1), [e.2.2, e.1.1, opp.2, e.1.2])],
          e.2.1 :: opp.1 :: st.2)).2 ∨
      opp.1 ∈ (if opp.1 ∈ st.2 then st
        else (st.1 ++ [((e.2.1, opp.1), [e.2.2, e.1.1, opp.2, e.1.2])],
          e.2.1 :: opp.1 :: st.2)).2
    by_cases h3 : opp.1 ∈ st.2
    · rw [if_pos h3]; exact Or.inr h3
    · rw [if_neg h3]
      exact Or.inl (List.mem_cons_self _ _)

theorem recoverLoop_pair_complete {K : Type} [DecidableEq K] [Inhabited K]
    (vkeys : List K) (shared : List (K × K)) (em : EdgeMap) :
    ∀ (l : List ((Nat × Nat) × (Nat × Nat)))
      (st : List ((Nat × Nat) × List Nat) × List Nat),
      ∀ e ∈ l, ∀ opp : Nat × Nat,
        (vkeys.getD e.1.1 default, vkeys.getD e.1.2 default) ∈ shared →
        edgeMapLookup (e.1.2, e.1.1) em = some opp →
        e.2.1 ∈ (l.foldl (recoverStep vkeys shared em) st).2 ∨
          opp.1 ∈ (l.foldl (recoverStep vkeys shared em) st).2 := by
  intro l
  induction l with
  | nil => intro st e he; cases he
  | cons x rest ih =>
    intro st e he opp hsh hopp
    rw [List.foldl_cons]
    rcases List.mem_cons.1 he with rfl | he'
    · rcases recoverStep_pair_hit vkeys shared em st e opp hsh hopp with h | h
      · exact Or.inl (recoverLoop_unioned_mono vkeys shared em rest _ _ h)
      · exact Or.inr (recoverLoop_unioned_mono vkeys shared em rest _ _ h)
    · exact ih _ e he' opp hsh hopp

/-- Claim C1: every quad emitted by `recoverQuads` is
`[t1.opposite, shared.a, t2.opposite, shared.b]` for a pair of adjacent
triangles whose shared directed edge has its quantised key pair in
`sharedQuadEdges` and whose opposite directed edge is in the triangle edge
map; conversely, for each such qualifying pair a quad is emitted unless one
of its two triangles is consumed by another emitted quad (some emitted quad
touches the pair); each input triangle is merged into at most one quad;
every triangle whose index is never merged is emitted unchanged; and when
every input face has 3 vertices every output face has 3 or 4 vertices. -/
theorem recoverQuads_spec {V K : Type} [DecidableEq K] [Inhabited K]
    (posKey : V → K) (vertices : List V) (triangles : List (List Nat))
    (shared : List (K × K)) :
    (∀ r ∈ (recoverQuadsLoop (vertices.map posKey) shared (buildEdgeMap triangles)).1,
        ∃ a b o1 o2,
          r.2 = [o1, a, o2, b] ∧
          ((vertices.map posKey).getD a default,
            (vertices.map posKey).getD b default) ∈ shared ∧
          triHasEdge triangles r.1.1 a b o1 ∧
          triHasEdge triangles r.1.2 b a o2) ∧
    (∀ e ∈ buildEdgeMap triangles, ∀ opp : Nat × Nat,
        ((vertices.map posKey).getD e.1.1 default,
          (vertices.map posKey).getD e.1.2 default) ∈ shared →
        edgeMapLookup (e.1.2, e.1.1) (buildEdgeMap triangles) = some opp →
        ∃ r ∈ (recoverQuadsLoop (vertices.map posKey) shared
            (buildEdgeMap triangles)).1,
          e.2.1 = r.1.1 ∨ e.2.1 = r.1.2 ∨ opp.1 = r.1.1 ∨ opp.1 = r.1.2) ∧
    List.Pairwise (fun r r' : (Nat × Nat) × List Nat =>
        r.1.1 ≠ r'.1.1 ∧ r.1.1 ≠ r'.1.2 ∧ r.1.2 ≠ r'.1.1 ∧ r.1.2 ≠ r'.1.2)
      (recoverQuadsLoop (vertices.map posKey) shared (buildEdgeMap triangles)).1 ∧
    (∀ (i : Nat) (f : List Nat), triangles[i]? = some f →
        (∀ r ∈ (recoverQuadsLoop (vertices.map posKey) shared
            (buildEdgeMap triangles)).1, i ≠ r.1.1 ∧ i ≠ r.1.2) →
        f ∈ recoverQuads posKey vertices triangles shared) ∧
    ((∀ f ∈ triangles, f.length = 3) →
        ∀ f ∈ recoverQuads posKey vertices triangles shared,
          f.length = 3 ∨ f.length = 4) := by
  obtain ⟨hA, hB, hC⟩ := recoverQuadsLoop_inv (vertices.map posKey) shared triangles
  refine ⟨?_, ?_, hB, ?_, ?_⟩
  · intro r hr
    obtain ⟨a, b, o1, o2, hq, hsh, hl1, hl2⟩ := hA r hr
    exact ⟨a, b, o1, o2, hq, hsh,
      buildEdgeMap_prop triangles _ (mem_of_edgeMapLookup _ _ _ hl1),
      buildEdgeMap_prop triangles _ (mem_of_edgeMapLookup _ _ _ hl2)⟩
  · intro e he opp hsh hopp
    have hhit := recoverLoop_pair_complete (vertices.map posKey) shared
      (buildEdgeMap triangles) (buildEdgeMap triangles) ([], []) e he opp hsh hopp
    rcases hhit with h | h
    · obtain ⟨r, hr, hcase⟩ := (hC e.2.1).1 h
      rcases hcase with h' | h'
      · exact ⟨r, hr, Or.inl h'⟩
      · exact ⟨r, hr, Or.inr (Or.inl h')⟩
    · obtain ⟨r, hr, hcase⟩ := (hC opp.1).1 h
      rcases hcase with h' | h'
      · exact ⟨r, hr, Or.inr (Or.inr (Or.inl h'))⟩
      · exact ⟨r, hr, Or.inr (Or.inr (Or.inr h'))⟩
  · intro i f hif hnm
    have hnot : i ∉ (recoverQuadsLoop (vertices.map posKey) shared
        (buildEdgeMap triangles)).2 := by
      intro hi
      obtain ⟨r, hr, hcase⟩ := (hC i).1 hi
      rcases hcase with h | h
      · exact (hnm r hr).1 h
      · exact (hnm r hr).2 h
    have hf : f ∈ appendUnmerged 0 triangles
        (recoverQuadsLoop (vertices.map posKey) shared (buildEdgeMap triangles)).2 :=
      appendUnmerged_mem triangles i 0 _ f hif (by simpa using hnot)
    simp only [recoverQuads]
    exact List.mem_append.2 (Or.inr hf)
  · intro h3 f hf
    simp only [recoverQuads] at hf
    rcases List.mem_append.1 hf with hf' | hf'
    · obtain ⟨r, hr, hrf⟩ := List.mem_map.1 hf'
      obtain ⟨a, b, o1, o2, hq, -⟩ := hA r hr
      right
      rw [← hrf, hq]
      rfl
    · left
      exact h3 f (appendUnmerged_sub triangles 0 _ f hf')

/-- Witness for C1 on two triangles sharing a recorded diagonal. -/
theorem recoverQuads_spec_witness :
    (∀ r ∈ (recoverQuadsLoop (sampleVertices.map fun v => v) sampleShared
        (buildEdgeMap sampleTriangles)).1,
        ∃ a b o1 o2,
          r.2 = [o1, a, o2, b] ∧
          ((sampleVertices.map fun v => v).getD a default,
            (sampleVertices.map fun v => v).getD b default) ∈ sampleShared ∧
          triHasEdge sampleTriangles r.1.1 a b o1 ∧
          triHasEdge sampleTriangles r.1.2 b a o2) ∧
    (∀ e ∈ buildEdgeMap sampleTriangles, ∀ opp : Nat × Nat,
        ((sampleVertices.map fun v => v).getD e.1.1 default,
          (sampleVertices.map fun v => v).getD e.1.2 default) ∈ sampleShared →
        edgeMapLookup (e.1.2, e.1.1) (buildEdgeMap sampleTriangles) = some opp →
        ∃ r ∈ (recoverQuadsLoop (sampleVertices.map fun v => v) sampleShared
            (buildEdgeMap sampleTriangles)).1,
          e.2.1 = r.1.1 ∨ e.2.1 = r.1.2 ∨ opp.1 = r.1.1 ∨ opp.1 = r.1.2) ∧
    List.Pairwise (fun r r' : (Nat × Nat) × List Nat =>
        r.1.1 ≠ r'.1.1 ∧ r.1.1 ≠ r'.1.2 ∧ r.1.2 ≠ r'.1.1 ∧ r.1.2 ≠ r'.1.2)
      (recoverQuadsLoop (sampleVertices.map fun v => v) sampleShared
        (buildEdgeMap sampleTriangles)).1 ∧
    (∀ (i : Nat) (f : List Nat), sampleTriangles[i]? = some f →
        (∀ r ∈ (recoverQuadsLoop (sampleVertices.map fun v => v) sampleShared
            (buildEdgeMap sampleTriangles)).1, i ≠ r.1.1 ∧ i ≠ r.1.2) →
        f ∈ recoverQuads (fun v => v) sampleVertices sampleTriangles sampleShared) ∧
    ((∀ f ∈ sampleTriangles, f.length = 3) →
        ∀ f ∈ recoverQuads (fun v => v) sampleVertices sampleTriangles sampleShared,
          f.length = 3 ∨ f.length = 4) :=
  recoverQuads_spec (fun v => v) sampleVertices sampleTriangles sampleShared

end Dust3d
